import Mathlib

/-!
Verification of the candidate-generation core of the bofire repository
(`bofire/strategies/predictives/botorch.py` and collaborators) against its
natural-language specification.  Python dictionaries mapping numeric column
indices to pinned scalar values are modelled as association lists with
insertion-order semantics; numeric values are modelled as rationals (the code
only stores and compares them, no float arithmetic is performed on them).
-/

namespace Bofire

/-- A Python dict from numeric column index to a pinned scalar value,
modelled as an association list in insertion order. -/
abbrev Dict := List (Nat × Rat)

/-- Python `d[k] = v`: replace the value in place if the key is present,
otherwise append the new binding (insertion-order semantics). -/
def dictInsert : Dict → Nat → Rat → Dict
  | [], k, v => [(k, v)]
  | p :: t, k, v => if p.1 = k then (k, v) :: t else p :: dictInsert t k v

/-- Python `d.get(k)` / `d[k]`: the binding for the key, if present. -/
def dictLookup : Dict → Nat → Option Rat
  | [], _ => none
  | p :: t, k => if p.1 = k then some p.2 else dictLookup t k

/-- Python `list(d.keys())`. -/
def dictKeys (d : Dict) : List Nat :=
  d.map Prod.fst

/-- Python `d1.copy(); d1.update(d2)`: every binding of `d2` is written into
a copy of `d1`, so `d2` wins on key collision. -/
def dictUpdate (d1 d2 : Dict) : Dict :=
  d2.foldl (fun d p => dictInsert d p.1 p.2) d1

theorem dictLookup_insert (d : Dict) (k v k') :
    dictLookup (dictInsert d k v) k' =
      if k' = k then some v else dictLookup d k' := by
  induction d with
  | nil =>
    show (if k = k' then some v else none) = _
    by_cases h : k = k'
    · rw [if_pos h, if_pos h.symm]
    · rw [if_neg h, if_neg (fun h' : k' = k => h h'.symm)]
      rfl
  | cons p t ih =>
    show dictLookup (if p.1 = k then (k, v) :: t else p :: dictInsert t k v) k' = _
    by_cases hp : p.1 = k
    · rw [if_pos hp]
      show (if k = k' then some v else dictLookup t k') = _
      by_cases hk : k = k'
      · rw [if_pos hk, if_pos hk.symm]
      · rw [if_neg hk, if_neg (fun h' : k' = k => hk h'.symm)]
        show dictLookup t k' = dictLookup (p :: t) k'
        show dictLookup t k' = if p.1 = k' then some p.2 else dictLookup t k'
        rw [if_neg (fun h' : p.1 = k' => hk (hp ▸ h'))]
    · rw [if_neg hp]
      show (if p.1 = k' then some p.2 else dictLookup (dictInsert t k v) k') = _
      by_cases hpk' : p.1 = k'
      · have hk' : ¬ k' = k := fun h' => hp (hpk'.trans h')
        rw [if_pos hpk', if_neg hk']
        show some p.2 = if p.1 = k' then some p.2 else dictLookup t k'
        rw [if_pos hpk']
      · rw [if_neg hpk', ih]
        by_cases hk : k' = k
        · rw [if_pos hk, if_pos hk]
        · rw [if_neg hk, if_neg hk]
          show dictLookup t k' = if p.1 = k' then some p.2 else dictLookup t k'
          rw [if_neg hpk']

theorem dictKeys_insert (d : Dict) (k v) :
    dictKeys (dictInsert d k v) =
      if k ∈ dictKeys d then dictKeys d else dictKeys d ++ [k] := by
  induction d with
  | nil => simp [dictInsert, dictKeys]
  | cons p t ih =>
    show dictKeys (if p.1 = k then (k, v) :: t else p :: dictInsert t k v) = _
    by_cases hp : p.1 = k
    · rw [if_pos hp, if_pos (show k ∈ dictKeys (p :: t) from
        List.mem_cons.mpr (Or.inl hp.symm))]
      show k :: dictKeys t = p.1 :: dictKeys t
      rw [hp]
    · rw [if_neg hp]
      show p.1 :: dictKeys (dictInsert t k v) = _
      rw [ih]
      by_cases hmem : k ∈ dictKeys t
      · rw [if_pos hmem,
          if_pos (show k ∈ dictKeys (p :: t) from List.mem_cons.mpr (Or.inr hmem))]
        rfl
      · rw [if_neg hmem,
          if_neg (show k ∉ dictKeys (p :: t) from by
            intro hc
            rcases List.mem_cons.mp hc with h1 | h2
            · exact hp h1.symm
            · exact hmem h2)]
        rfl

theorem dictLookup_eq_none_of_not_mem_keys {d : Dict} {k : Nat}
    (h : k ∉ dictKeys d) : dictLookup d k = none := by
  induction d with
  | nil => rfl
  | cons p t ih =>
    have h1 : ¬ p.1 = k := fun h' => h (List.mem_cons.mpr (Or.inl h'.symm))
    have h2 : k ∉ dictKeys t := fun h' => h (List.mem_cons.mpr (Or.inr h'))
    show (if p.1 = k then some p.2 else dictLookup t k) = none
    rw [if_neg h1]
    exact ih h2

/-- Looking up a merged dict: a key bound in `d2` (assuming `d2` has no
duplicate keys, as every dict built by the code does) takes its `d2` value,
otherwise the `d1` value survives. -/
theorem dictLookup_update (d1 d2 : Dict) (k : Nat) (h : (dictKeys d2).Nodup) :
    dictLookup (dictUpdate d1 d2) k =
      if (dictLookup d2 k).isSome then dictLookup d2 k else dictLookup d1 k := by
  induction d2 generalizing d1 with
  | nil => simp [dictUpdate, dictLookup]
  | cons p t ih =>
    have hall : p.1 ∉ dictKeys t ∧ (dictKeys t).Nodup :=
      List.nodup_cons.mp (show (p.1 :: dictKeys t).Nodup from h)
    show dictLookup (dictUpdate (dictInsert d1 p.1 p.2) t) k = _
    rw [ih _ hall.2]
    by_cases hk : k = p.1
    · subst hk
      have ht : dictLookup t p.1 = none := dictLookup_eq_none_of_not_mem_keys hall.1
      rw [ht]
      simp only [Option.isSome_none, Bool.false_eq_true, if_false]
      rw [dictLookup_insert, if_pos rfl]
      have hpt : dictLookup (p :: t) p.1 = some p.2 := by
        show (if p.1 = p.1 then some p.2 else dictLookup t p.1) = some p.2
        rw [if_pos rfl]
      rw [hpt]
      rfl
    · have hpk : ¬ p.1 = k := fun h' => hk h'.symm
      have hpt : dictLookup (p :: t) k = dictLookup t k := by
        show (if p.1 = k then some p.2 else dictLookup t k) = dictLookup t k
        rw [if_neg hpk]
      rw [hpt]
      rcases h2 : dictLookup t k with _ | v
      · simp only [Option.isSome_none, Bool.false_eq_true, if_false]
        rw [dictLookup_insert, if_neg hk]
      · rfl

/-!
Embedding of `BotorchStrategy.get_fixed_values_list`
(src/bofire/strategies/predictives/botorch.py, lines 446-456): the cartesian
product of the categorical-combination dicts with the n-choose-k dicts, each
pair shallow-merged with the n-choose-k dict winning.  The two input lists are
the outputs of the two enumerators, consumed as opaque values by the source
function.
-/

def get_fixed_values_list (catCombos nchoosekCombos : List Dict) : List Dict :=
  catCombos.foldl
    (fun acc ff1 =>
      nchoosekCombos.foldl (fun acc2 ff2 => acc2 ++ [dictUpdate ff1 ff2]) acc)
    []

theorem get_fixed_values_list_eq_flatMap (catCombos nchoosekCombos : List Dict) :
    get_fixed_values_list catCombos nchoosekCombos =
      catCombos.flatMap
        (fun ff1 => nchoosekCombos.map (fun ff2 => dictUpdate ff1 ff2)) := by
  unfold get_fixed_values_list
  have inner : ∀ (ff1 : Dict) (acc : List Dict),
      nchoosekCombos.foldl (fun acc2 ff2 => acc2 ++ [dictUpdate ff1 ff2]) acc =
        acc ++ nchoosekCombos.map (fun ff2 => dictUpdate ff1 ff2) := by
    intro ff1 acc
    induction nchoosekCombos generalizing acc with
    | nil => simp
    | cons h t ih => simp [List.foldl_cons, ih]
  have outer : ∀ (acc : List Dict),
      catCombos.foldl
        (fun acc ff1 =>
          nchoosekCombos.foldl (fun acc2 ff2 => acc2 ++ [dictUpdate ff1 ff2]) acc) acc =
        acc ++ catCombos.flatMap
          (fun ff1 => nchoosekCombos.map (fun ff2 => dictUpdate ff1 ff2)) := by
    intro acc
    induction catCombos generalizing acc with
    | nil => simp
    | cons hd tl ih =>
      simp only [List.foldl_cons]
      rw [inner hd acc, ih, List.flatMap_cons, List.append_assoc]
  simpa using outer []

theorem get_fixed_values_list_length (catCombos nchoosekCombos : List Dict) :
    (get_fixed_values_list catCombos nchoosekCombos).length =
      catCombos.length * nchoosekCombos.length := by
  rw [get_fixed_values_list_eq_flatMap]
  induction catCombos with
  | nil => simp
  | cons h t ih => simp [List.flatMap_cons, ih, Nat.succ_mul, Nat.add_comm]

theorem get_fixed_values_list_get (catCombos nchoosekCombos : List Dict)
    (i j : Nat) (hi : i < catCombos.length) (hj : j < nchoosekCombos.length) :
    (get_fixed_values_list catCombos nchoosekCombos)[i * nchoosekCombos.length + j]? =
      some (dictUpdate catCombos[i] nchoosekCombos[j]) := by
  rw [get_fixed_values_list_eq_flatMap]
  induction catCombos generalizing i with
  | nil => simp at hi
  | cons h t ih =>
    rcases i with _ | i
    · simp only [List.flatMap_cons, Nat.zero_mul, Nat.zero_add]
      rw [List.getElem?_append_left (by simpa using hj)]
      simp [List.getElem?_map, hj]
    · have hi' : i < t.length := by simpa using hi
      simp only [List.flatMap_cons]
      rw [List.getElem?_append_right (by simp [Nat.succ_mul]; omega)]
      have harith : (i + 1) * nchoosekCombos.length + j -
          (nchoosekCombos.map (fun ff2 => dictUpdate h ff2)).length =
          i * nchoosekCombos.length + j := by
        simp [Nat.succ_mul]
        omega
      rw [harith]
      simpa using ih i hi'

/-!
Embedding of `BotorchStrategy.get_nchoosek_combinations`
(src/bofire/strategies/predictives/botorch.py, lines 421-444).  The pairs of
(used, unused) feature-key lists are produced by
`domain.get_nchoosek_combinations(exhaustive=True)`, whose implementation is
not part of this repository snapshot, so the pairs list is a parameter here.
For every pair the code pins column `features2idx[f_key][0]` of every unused
feature key to `0.0`, and appends `{}` when the resulting list is empty.
-/

def get_nchoosek_combinations (features2idx : String → List Nat)
    (pairs : List (List String × List String)) : List Dict :=
  let fixed_values_list_cc := pairs.map (fun p =>
    p.2.foldl (fun d fkey => dictInsert d ((features2idx fkey).headD 0) 0) [])
  if fixed_values_list_cc.length = 0 then fixed_values_list_cc ++ [[]]
  else fixed_values_list_cc

theorem dictLookup_pinZeros (cols : List Nat) (d : Dict) (k : Nat) :
    dictLookup (cols.foldl (fun d c => dictInsert d c 0) d) k =
      if k ∈ cols then some 0 else dictLookup d k := by
  induction cols generalizing d with
  | nil => simp
  | cons c cs ih =>
    simp only [List.foldl_cons]
    rw [ih]
    by_cases hmem : k ∈ cs
    · rw [if_pos hmem, if_pos (List.mem_cons.mpr (Or.inr hmem))]
    · rw [if_neg hmem, dictLookup_insert]
      by_cases hk : k = c
      · rw [if_pos hk, if_pos (List.mem_cons.mpr (Or.inl hk))]
      · rw [if_neg hk, if_neg (fun hc => by
          rcases List.mem_cons.mp hc with h1 | h2
          · exact hk h1
          · exact hmem h2)]

/-- C4: `get_nchoosek_combinations` always returns a non-empty list; with no
n-choose-k pairs it returns exactly `[{}]`, and otherwise the i-th dict binds
precisely the first columns of the i-th pair's unused feature keys, each to
`0.0`, leaving every other column (in particular the used features' columns,
which are distinct from the unused ones by construction) absent. -/
theorem get_nchoosek_combinations_spec (features2idx : String → List Nat)
    (pairs : List (List String × List String)) :
    get_nchoosek_combinations features2idx pairs ≠ [] ∧
    (pairs = [] → get_nchoosek_combinations features2idx pairs = [[]]) ∧
    (∀ i, i < pairs.length → ∀ k,
      dictLookup ((get_nchoosek_combinations features2idx pairs).getD i []) k =
        if k ∈ ((pairs.getD i ([], [])).2).map (fun f => (features2idx f).headD 0)
        then some 0 else none) ∧
    (∀ i, i < pairs.length → ∀ fkey, fkey ∈ (pairs.getD i ([], [])).1 →
      (features2idx fkey).headD 0 ∉
        ((pairs.getD i ([], [])).2).map (fun f => (features2idx f).headD 0) →
      dictLookup ((get_nchoosek_combinations features2idx pairs).getD i [])
        ((features2idx fkey).headD 0) = none) := by
  have hmain : ∀ i, i < pairs.length → ∀ k,
      dictLookup ((get_nchoosek_combinations features2idx pairs).getD i []) k =
        if k ∈ ((pairs.getD i ([], [])).2).map (fun f => (features2idx f).headD 0)
        then some 0 else none := by
    intro i hi k
    unfold get_nchoosek_combinations
    have hlen : (pairs.map (fun p =>
        p.2.foldl (fun d fkey => dictInsert d ((features2idx fkey).headD 0) 0) [])).length ≠ 0 := by
      simp only [List.length_map]
      omega
    simp only [if_neg hlen]
    rw [List.getD_eq_getElem?_getD, List.getElem?_map,
      List.getElem?_eq_getElem hi]
    simp only [Option.map_some', Option.getD_some]
    have hfold : (pairs[i].2).foldl
        (fun d fkey => dictInsert d ((features2idx fkey).headD 0) 0) [] =
        ((pairs[i].2).map (fun f => (features2idx f).headD 0)).foldl
          (fun d c => dictInsert d c 0) [] := by
      rw [List.foldl_map]
    rw [hfold, dictLookup_pinZeros]
    have hgetD : pairs.getD i ([], []) = pairs[i] := by
      rw [List.getD_eq_getElem?_getD, List.getElem?_eq_getElem hi]
      rfl
    rw [hgetD]
    rfl
  refine ⟨?_, ?_, hmain, ?_⟩
  · unfold get_nchoosek_combinations
    rcases pairs with _ | ⟨p, t⟩
    · simp
    · simp
  · intro hp
    subst hp
    rfl
  · intro i hi fkey _ hnot
    rw [hmain i hi _, if_neg hnot]

/-- Witness for C4 at concrete inputs: no pairs gives `[{}]`; with one pair
using feature a and not using b, c, the unused first columns 1 and 2 are
pinned to 0 and the used column 0 is absent. -/
theorem get_nchoosek_combinations_spec_witness :
    get_nchoosek_combinations
      (fun s => if s = "a" then [0] else if s = "b" then [1] else [2]) [] = [[]] ∧
    dictLookup ((get_nchoosek_combinations
      (fun s => if s = "a" then [0] else if s = "b" then [1] else [2])
      [(["a"], ["b", "c"])]).getD 0 []) 1 = some 0 ∧
    dictLookup ((get_nchoosek_combinations
      (fun s => if s = "a" then [0] else if s = "b" then [1] else [2])
      [(["a"], ["b", "c"])]).getD 0 []) 0 = none := by
  refine ⟨(get_nchoosek_combinations_spec _ []).2.1 rfl, ?_, ?_⟩
  · rw [(get_nchoosek_combinations_spec
      (fun s => if s = "a" then [0] else if s = "b" then [1] else [2])
      [(["a"], ["b", "c"])]).2.2.1 0 (by decide) 1]
    decide
  · exact (get_nchoosek_combinations_spec
      (fun s => if s = "a" then [0] else if s = "b" then [1] else [2])
      [(["a"], ["b", "c"])]).2.2.2 0 (by decide) "a" (by decide) (by decide)

/-!
Embedding of `is_power_of_two` and the `num_sobol_samples` / `num_raw_samples`
pydantic validators (src/bofire/data_models/strategies/predictives/botorch.py,
lines 16-17 and 56-70).  The validated fields are `PositiveInt`s, so the
statements carry a positivity hypothesis; `n & (n - 1)` is Python's bitwise
AND on non-negative ints, which is `Nat.land`.
-/

def is_power_of_two (n : Nat) : Bool :=
  (n != 0) && (n &&& (n - 1) == 0)

def validate_num_sobol_samples (v : Nat) : Except String Nat :=
  if is_power_of_two v = false then
    Except.error "number sobol samples have to be of the power of 2 to increase performance"
  else Except.ok v

def validate_num_raw_samples (v : Nat) : Except String Nat :=
  if is_power_of_two v = false then
    Except.error "number raw samples have to be of the power of 2 to increase performance"
  else Except.ok v

theorem is_power_of_two_iff (n : Nat) (hn : 0 < n) :
    is_power_of_two n = true ↔ ∃ k, n = 2 ^ k := by
  unfold is_power_of_two
  simp only [Bool.and_eq_true, bne_iff_ne, ne_eq, beq_iff_eq]
  constructor
  · rintro ⟨-, hand⟩
    refine ⟨n.log2, ?_⟩
    by_contra hne
    have hle : 2 ^ n.log2 ≤ n := Nat.log2_self_le (by omega)
    have hlt : n < 2 ^ (n.log2 + 1) := Nat.lt_log2_self
    revert hle hlt hne
    generalize n.log2 = m
    intro hne hle hlt
    have hgt : 2 ^ m < n := lt_of_le_of_ne hle (fun h => hne h.symm)
    have hr1 : n = 2 ^ m + (n - 2 ^ m) := by omega
    have hrlt : n - 2 ^ m < 2 ^ m := by
      have : 2 ^ (m + 1) = 2 ^ m + 2 ^ m := by ring
      omega
    have hbn : n.testBit m = true := by
      conv_lhs => rw [hr1]
      rw [Nat.testBit_two_pow_add_eq, Nat.testBit_eq_false_of_lt hrlt]
      rfl
    have hr2 : n - 1 = 2 ^ m + (n - 2 ^ m - 1) := by omega
    have hbn1 : (n - 1).testBit m = true := by
      conv_lhs => rw [hr2]
      rw [Nat.testBit_two_pow_add_eq,
        Nat.testBit_eq_false_of_lt (by omega : n - 2 ^ m - 1 < 2 ^ m)]
      rfl
    have hland : (n &&& (n - 1)).testBit m = true := by
      rw [Nat.testBit_land, hbn, hbn1]
      rfl
    rw [hand, Nat.zero_testBit] at hland
    exact Bool.false_ne_true hland
  · rintro ⟨k, rfl⟩
    refine ⟨(Nat.two_pow_pos k).ne', ?_⟩
    apply Nat.eq_of_testBit_eq
    intro i
    rw [Nat.testBit_land, Nat.testBit_two_pow, Nat.testBit_two_pow_sub_one,
      Nat.zero_testBit]
    by_cases h : k = i
    · subst h
      simp
    · simp [h]

/-- C10: for every positive value, constructing the data model succeeds
(both validators return the value) exactly when the value is a power of two,
and otherwise each validator raises its ValueError message. -/
theorem botorch_power_of_two_validation (v : Nat) (hv : 0 < v) :
    ((validate_num_sobol_samples v = Except.ok v ∧
      validate_num_raw_samples v = Except.ok v) ↔ ∃ k, v = 2 ^ k) ∧
    (¬ (∃ k, v = 2 ^ k) →
      validate_num_sobol_samples v =
        Except.error
          "number sobol samples have to be of the power of 2 to increase performance" ∧
      validate_num_raw_samples v =
        Except.error
          "number raw samples have to be of the power of 2 to increase performance") := by
  constructor
  · constructor
    · rintro ⟨h1, -⟩
      rw [← is_power_of_two_iff v hv]
      by_contra hfalse
      have hf : is_power_of_two v = false := by
        revert hfalse
        rcases is_power_of_two v with _ | _ <;> simp
      unfold validate_num_sobol_samples at h1
      rw [if_pos hf] at h1
      exact Except.noConfusion h1
    · intro hpow
      have ht : is_power_of_two v = true := (is_power_of_two_iff v hv).mpr hpow
      constructor
      · unfold validate_num_sobol_samples
        rw [ht]
        rfl
      · unfold validate_num_raw_samples
        rw [ht]
        rfl
  · intro hnot
    have hf : is_power_of_two v = false := by
      rcases h : is_power_of_two v with _ | _
      · rfl
      · exact absurd ((is_power_of_two_iff v hv).mp h) hnot
    constructor
    · unfold validate_num_sobol_samples
      rw [if_pos hf]
    · unfold validate_num_raw_samples
      rw [if_pos hf]

/-- Witness for C10 at concrete inputs: 8 is accepted by both validators, and
5 (a positive non-power of two) makes the sobol validator raise. -/
theorem botorch_power_of_two_validation_witness :
    (validate_num_sobol_samples 8 = Except.ok 8 ∧
      validate_num_raw_samples 8 = Except.ok 8) ∧
    validate_num_sobol_samples 5 =
      Except.error
        "number sobol samples have to be of the power of 2 to increase performance" := by
  constructor
  · exact (botorch_power_of_two_validation 8 (by decide)).1.mpr ⟨3, by decide⟩
  · refine ((botorch_power_of_two_validation 5 (by decide)).2 ?_).1
    rintro ⟨k, hk⟩
    rcases Nat.lt_or_ge k 3 with h | h
    · interval_cases k <;> simp_all
    · have h8 : (8:Nat) ≤ 2 ^ k := by
        calc (8:Nat) = 2 ^ 3 := rfl
        _ ≤ 2 ^ k := Nat.pow_le_pow_right (by omega) h
      omega

/-- C3: `get_fixed_values_list` returns exactly
`len(categorical combos) * len(nchoosek combos)` dicts; the element at flat
index `i * len(ncks) + j` is the shallow merge of categorical combo `i` with
n-choose-k combo `j`, and on any key bound in both the n-choose-k value wins
(the n-choose-k dicts built by the code have no duplicate keys). -/
theorem get_fixed_values_list_spec (catCombos nchoosekCombos : List Dict) :
    (get_fixed_values_list catCombos nchoosekCombos).length =
        catCombos.length * nchoosekCombos.length ∧
    (∀ i j, i < catCombos.length → j < nchoosekCombos.length →
      (get_fixed_values_list catCombos nchoosekCombos).getD
          (i * nchoosekCombos.length + j) [] =
        dictUpdate (catCombos.getD i []) (nchoosekCombos.getD j []) ∧
      (∀ k, (dictKeys (nchoosekCombos.getD j [])).Nodup →
        dictLookup ((get_fixed_values_list catCombos nchoosekCombos).getD
            (i * nchoosekCombos.length + j) []) k =
          if (dictLookup (nchoosekCombos.getD j []) k).isSome
          then dictLookup (nchoosekCombos.getD j []) k
          else dictLookup (catCombos.getD i []) k)) := by
  refine ⟨get_fixed_values_list_length catCombos nchoosekCombos, ?_⟩
  intro i j hi hj
  have hel := get_fixed_values_list_get catCombos nchoosekCombos i j hi hj
  have hgd : (get_fixed_values_list catCombos nchoosekCombos).getD
      (i * nchoosekCombos.length + j) [] =
      dictUpdate catCombos[i] nchoosekCombos[j] := by
    rw [List.getD_eq_getElem?_getD, hel]
    rfl
  have hci : catCombos.getD i [] = catCombos[i] := by
    rw [List.getD_eq_getElem?_getD, List.getElem?_eq_getElem hi]
    rfl
  have hnj : nchoosekCombos.getD j [] = nchoosekCombos[j] := by
    rw [List.getD_eq_getElem?_getD, List.getElem?_eq_getElem hj]
    rfl
  refine ⟨by rw [hgd, hci, hnj], ?_⟩
  intro k hnodup
  rw [hgd, hci, hnj]
  rw [hnj] at hnodup
  exact dictLookup_update catCombos[i] nchoosekCombos[j] k hnodup

/-- Witness for C3 at concrete inputs: two categorical combos crossed with two
n-choose-k combos give four dicts; the (1,0) element merges the second
categorical combo with the first n-choose-k combo, the n-choose-k pin of
column 0 winning over the categorical pin while column 1 survives from the
categorical combo. -/
theorem get_fixed_values_list_spec_witness :
    (get_fixed_values_list [[(0, 1)], [(0, 2), (1, 3)]] [[(0, 5)], [(2, 7)]]).length = 4 ∧
    dictLookup ((get_fixed_values_list [[(0, 1)], [(0, 2), (1, 3)]]
        [[(0, 5)], [(2, 7)]]).getD 2 []) 0 = some 5 ∧
    dictLookup ((get_fixed_values_list [[(0, 1)], [(0, 2), (1, 3)]]
        [[(0, 5)], [(2, 7)]]).getD 2 []) 1 = some 3 := by
  have h := get_fixed_values_list_spec [[(0, 1)], [(0, 2), (1, 3)]] [[(0, 5)], [(2, 7)]]
  refine ⟨h.1, ?_, ?_⟩
  · exact ((h.2 1 0 (by decide) (by decide)).2 0 (by decide)).trans (by decide)
  · exact ((h.2 1 0 (by decide) (by decide)).2 1 (by decide)).trans (by decide)

/-!
Data model of input features and preprocessing specs
(src/bofire/data_models/features, src/bofire/data_models/enum).  The feature
base classes themselves are not part of this repository snapshot; their
fixed-value/encoding behaviour is modelled from the spec (sections 3 and 4.1).
`TaskInput` and `CategoricalDescriptorInput` subclass `CategoricalInput` in
the data model, which the `isinstance` predicates reflect.
-/

inductive CategoricalMethodEnum
  | EXHAUSTIVE
  | FREE
deriving DecidableEq, Repr

inductive CategoricalEncodingEnum
  | ONE_HOT
  | ORDINAL
  | DUMMY
  | DESCRIPTOR
deriving DecidableEq, Repr

inductive Feature
  | continuous (key : String) (lower upper : Rat)
  | categorical (key : String) (categories : List String) (allowed : List Bool)
  | categoricalDescriptor (key : String) (categories : List String)
      (allowed : List Bool) (descriptors : List String) (values : List (List Rat))
  | discrete (key : String) (values : List Rat)
  | task (key : String) (categories : List String) (allowed : List Bool)
deriving DecidableEq, Repr

def Feature.key : Feature → String
  | .continuous k _ _ => k
  | .categorical k _ _ => k
  | .categoricalDescriptor k _ _ _ _ => k
  | .discrete k _ => k
  | .task k _ _ => k

def Feature.categories : Feature → List String
  | .categorical _ cats _ => cats
  | .categoricalDescriptor _ cats _ _ _ => cats
  | .task _ cats _ => cats
  | _ => []

def Feature.allowed : Feature → List Bool
  | .categorical _ _ a => a
  | .categoricalDescriptor _ _ a _ _ => a
  | .task _ _ a => a
  | _ => []

def Feature.isContinuousInput : Feature → Bool
  | .continuous _ _ _ => true
  | _ => false

def Feature.isCategoricalInput : Feature → Bool
  | .categorical _ _ _ => true
  | .categoricalDescriptor _ _ _ _ _ => true
  | .task _ _ _ => true
  | _ => false

def Feature.isCategoricalDescriptorInput : Feature → Bool
  | .categoricalDescriptor _ _ _ _ _ => true
  | _ => false

def Feature.isDiscreteInput : Feature → Bool
  | .discrete _ _ => true
  | _ => false

def Feature.isTaskInput : Feature → Bool
  | .task _ _ _ => true
  | _ => false

/-- Modelled from the spec (section 3): categories whose allowed mask entry is
`True`. -/
def Feature.get_allowed_categories (f : Feature) : List String :=
  ((f.categories.zip f.allowed).filter (fun p => p.2)).map Prod.fst

/-- Modelled from the spec (section 4.3): categories whose allowed mask entry
is `False`. -/
def Feature.get_forbidden_categories (f : Feature) : List String :=
  ((f.categories.zip f.allowed).filter (fun p => !p.2)).map Prod.fst

/-- Modelled from the spec (section 4.1): the one-hot row of a category, one
column per category, 1 at the chosen category and 0 elsewhere. -/
def to_onehot_encoding (categories : List String) (val : String) : List Rat :=
  categories.map (fun c => if c = val then 1 else 0)

/-- Modelled from the spec (section 4.3): a feature is fixed when a continuous
feature has `lower == upper`, a categorical one has exactly one allowed
category, a discrete one has a single value (disallowed by the data-model
invariant, so it never occurs in a valid domain). -/
def Feature.is_fixed : Feature → Bool
  | .continuous _ lower upper => lower == upper
  | .discrete _ values => values.length == 1
  | f => f.get_allowed_categories.length == 1

/-- Modelled from the spec (section 4.1): the descriptor-matrix row of a
category. -/
def Feature.descriptorRow : Feature → String → List Rat
  | .categoricalDescriptor _ cats _ _ values, val => values.getD (cats.indexOf val) []
  | _, _ => []

/-- Modelled from the spec (sections 4.1 and 4.3): the encoded numeric values
a fixed feature is pinned to, one per column the feature owns under the given
transform. -/
def Feature.fixed_value (f : Feature) (transform : Option CategoricalEncodingEnum) :
    Option (List Rat) :=
  match f with
  | .continuous _ lower upper => if lower = upper then some [lower] else none
  | .discrete _ values => if values.length = 1 then some [values.headD 0] else none
  | _ =>
    if f.get_allowed_categories.length = 1 then
      let c := f.get_allowed_categories.headD ""
      match transform with
      | some .ONE_HOT => some (to_onehot_encoding f.categories c)
      | some .ORDINAL => some [(f.categories.indexOf c : Rat)]
      | some .DUMMY => some ((to_onehot_encoding f.categories c).drop 1)
      | some .DESCRIPTOR => some (f.descriptorRow c)
      | none => none
    else none

/-- Modelled from the spec (section 4.2): how many numeric columns a feature
occupies under the given preprocessing spec. -/
def numCols (transform : Option CategoricalEncodingEnum) (f : Feature) : Nat :=
  match f with
  | .continuous _ _ _ => 1
  | .discrete _ _ => 1
  | .categoricalDescriptor _ cats _ descs _ =>
    match transform with
    | some .ONE_HOT => cats.length
    | some .ORDINAL => 1
    | some .DUMMY => cats.length - 1
    | some .DESCRIPTOR => descs.length
    | none => 1
  | f' =>
    match transform with
    | some .ONE_HOT => f'.categories.length
    | some .ORDINAL => 1
    | some .DUMMY => f'.categories.length - 1
    | _ => 1

/-- Python dict lookup in `input_preprocessing_specs`. -/
def specsGet (specs : List (String × CategoricalEncodingEnum)) (k : String) :
    Option CategoricalEncodingEnum :=
  (specs.find? (fun p => p.1 == k)).map Prod.snd

/-- Modelled from the spec (section 4.2): `Inputs._get_transform_info` walks
the features in declaration order, allocating sequential column indices to
each feature according to its column count. -/
def _get_transform_info (specs : List (String × CategoricalEncodingEnum)) :
    List Feature → Nat → List (String × List Nat)
  | [], _ => []
  | f :: fs, offset =>
    (f.key, (List.range (numCols (specsGet specs f.key) f)).map (fun j => offset + j)) ::
      _get_transform_info specs fs (offset + numCols (specsGet specs f.key) f)

/-- Lookup into the transform-info table (Python `features2idx[key]`). -/
def tiLookup (ti : List (String × List Nat)) (k : String) : List Nat :=
  ((ti.find? (fun p => p.1 == k)).map Prod.snd).getD []

/-- The functional strategy state relevant to candidate generation
(src/bofire/strategies/predictives/botorch.py, constructor lines 42-56). -/
structure Strategy where
  inputs : List Feature
  specs : List (String × CategoricalEncodingEnum)
  categorical_method : CategoricalMethodEnum
  descriptor_method : CategoricalMethodEnum
  discrete_method : CategoricalMethodEnum
deriving DecidableEq, Repr

/-- Python `self._features2idx` for a strategy. -/
def features2idx (S : Strategy) : String → List Nat :=
  fun k => tiLookup (_get_transform_info S.specs S.inputs 0) k

/-!
Embedding of `BotorchStrategy.get_fixed_features`
(src/bofire/strategies/predictives/botorch.py, lines 286-347).  Each of the
three per-feature loops is expressed as a sequential fold that writes one
pin list per feature into the accumulating dict.
-/

/-- Sequential per-feature loop writing each feature's pin list into the
accumulating dict. -/
def loopWrites (step : Feature → List (Nat × Rat)) : List Feature → Dict → Dict
  | [], d => d
  | f :: fs, d => loopWrites step fs (dictUpdate d (step f))

/-- Pins of the first loop (lines 298-302): a fixed feature's columns are
pinned to its encoded fixed values. -/
def fixedValuePins (S : Strategy) (f : Feature) : List (Nat × Rat) :=
  match f.fixed_value (specsGet S.specs f.key) with
  | none => []
  | some vals => (features2idx S f.key).zip vals

/-- Pins of the second loop (lines 308-327): for a non-fixed one-hot
categorical, the one-hot column of each forbidden category (the column where
that category's one-hot row has the 1) is pinned to 0. -/
def forbiddenOneHotPins (S : Strategy) (f : Feature) : List (Nat × Rat) :=
  if f.is_fixed then []
  else f.get_forbidden_categories.flatMap (fun cat =>
    (((features2idx S f.key).zip (to_onehot_encoding f.categories cat)).filter
      (fun p => p.2 == 1)).map (fun p => (p.1, (0 : Rat))))

def Feature.descriptorValues : Feature → List (List Rat)
  | .categoricalDescriptor _ _ _ _ values => values
  | _ => []

def listMin : List Rat → Rat
  | [] => 0
  | x :: xs => xs.foldl min x

def listMax : List Rat → Rat
  | [] => 0
  | x :: xs => xs.foldl max x

/-- Modelled from the spec (section 4.1): descriptor column `j` restricted to
allowed categories. -/
def colVals (f : Feature) (j : Nat) : List Rat :=
  (((f.descriptorValues.zip f.allowed).filter (fun p => p.2)).map Prod.fst).map
    (fun row => row.getD j 0)

/-- Pins of the third loop (lines 329-346): for a non-fixed descriptor-encoded
categorical-descriptor feature, every descriptor column whose min equals its
max over the allowed categories is pinned to that common value. -/
def descriptorFixedPins (S : Strategy) (f : Feature) : List (Nat × Rat) :=
  if f.is_fixed then []
  else
    (((features2idx S f.key).enum.filter
      (fun p => listMin (colVals f p.1) == listMax (colVals f p.1))).map
      (fun p => (p.2, listMin (colVals f p.1))))

/-- The dict after the first loop of `get_fixed_features` (lines 295-302). -/
def gffFixedOnly (S : Strategy) : Dict :=
  loopWrites (fixedValuePins S) S.inputs []

/-- The filtered feature list of the second loop (lines 313-319). -/
def oneHotCategoricals (S : Strategy) : List Feature :=
  S.inputs.filter (fun f => f.isCategoricalInput &&
    specsGet S.specs f.key == some CategoricalEncodingEnum.ONE_HOT)

/-- The dict after the second loop of `get_fixed_features` (lines 308-327). -/
def gffAfterOneHot (S : Strategy) : Dict :=
  if S.categorical_method == CategoricalMethodEnum.FREE &&
      (S.specs.map Prod.snd).contains CategoricalEncodingEnum.ONE_HOT then
    loopWrites (forbiddenOneHotPins S) (oneHotCategoricals S) (gffFixedOnly S)
  else gffFixedOnly S

/-- The filtered feature list of the third loop (lines 334-340). -/
def descriptorCategoricals (S : Strategy) : List Feature :=
  S.inputs.filter (fun f => f.isCategoricalDescriptorInput &&
    specsGet S.specs f.key == some CategoricalEncodingEnum.DESCRIPTOR)

def get_fixed_features (S : Strategy) : Dict :=
  if S.descriptor_method == CategoricalMethodEnum.FREE &&
      (S.specs.map Prod.snd).contains CategoricalEncodingEnum.DESCRIPTOR then
    loopWrites (descriptorFixedPins S) (descriptorCategoricals S) (gffAfterOneHot S)
  else gffAfterOneHot S

/-!
Embedding of `BotorchStrategy.get_categorical_combinations`
(src/bofire/strategies/predictives/botorch.py, lines 349-419).  The domain
helper `Inputs.get_categorical_combinations(include, exclude)` is not part of
this repository snapshot; its enumeration is modelled from the spec (section
4.4) and the expected values in tests/bofire/strategies/test_base.py.
-/

inductive ComboVal
  | cat (s : String)
  | num (q : Rat)
deriving DecidableEq, Repr

inductive FeatureClass
  | InputCls
  | CategoricalInputCls
  | CategoricalDescriptorInputCls
  | DiscreteInputCls
deriving DecidableEq, Repr

def Feature.isinstance (f : Feature) : FeatureClass → Bool
  | .InputCls => true
  | .CategoricalInputCls => f.isCategoricalInput
  | .CategoricalDescriptorInputCls => f.isCategoricalDescriptorInput
  | .DiscreteInputCls => f.isDiscreteInput

/-- The include list built by `get_categorical_combinations` (lines 366-377):
one entry per EXHAUSTIVE method. -/
def includeClasses (S : Strategy) : List FeatureClass :=
  (if S.discrete_method = CategoricalMethodEnum.EXHAUSTIVE
   then [FeatureClass.DiscreteInputCls] else []) ++
  (if S.categorical_method = CategoricalMethodEnum.EXHAUSTIVE
   then [FeatureClass.CategoricalInputCls] else []) ++
  (if S.descriptor_method = CategoricalMethodEnum.EXHAUSTIVE
   then [FeatureClass.CategoricalDescriptorInputCls] else [])

/-- The exclude class built by `get_categorical_combinations`: set to
`CategoricalDescriptorInput` in the EXHAUSTIVE-categorical branch and reset to
`None` in the EXHAUSTIVE-descriptor branch, which runs afterwards
(lines 366-378). -/
def excludeClass (S : Strategy) : Option FeatureClass :=
  if S.descriptor_method = CategoricalMethodEnum.EXHAUSTIVE then none
  else if S.categorical_method = CategoricalMethodEnum.EXHAUSTIVE then
    some FeatureClass.CategoricalDescriptorInputCls
  else none

/-- Lines 380-384: an empty include list falls back to the `Input` base
class. -/
def effectiveInclude (S : Strategy) : List FeatureClass :=
  if includeClasses S = [] then [FeatureClass.InputCls] else includeClasses S

/-- Modelled from the spec (section 4.4 step 3) and the expected values in
tests/bofire/strategies/test_base.py: the domain enumerates the non-fixed
categorical/discrete features matching an include class and not the exclude
class. -/
def enumeratedFeatures (S : Strategy) : List Feature :=
  S.inputs.filter (fun f =>
    ((effectiveInclude S).any (fun c => f.isinstance c)) &&
    !(match excludeClass S with
      | some c => f.isinstance c
      | none => false) &&
    (f.isCategoricalInput || f.isDiscreteInput) && !f.is_fixed)

/-- Modelled from the spec (section 4.4 step 3): the candidate (key, value)
choices of one enumerated feature. -/
def enumerationValues : Feature → List (String × ComboVal)
  | .discrete k vals => vals.map (fun v => (k, ComboVal.num v))
  | f => f.get_allowed_categories.map (fun c => (f.key, ComboVal.cat c))

/-- Modelled from the spec (section 4.4 step 3): the cross-product of the
enumerated features' choice lists. -/
def categoricalCombos (S : Strategy) : List (List (String × ComboVal)) :=
  ((enumeratedFeatures S).map enumerationValues).sections

/-- The per-pair overlay of `get_categorical_combinations` (lines 396-416):
a descriptor-encoded categorical-descriptor feature is pinned per column to
the chosen category's descriptor-matrix row; any other categorical to the
one-hot row; a discrete feature to the chosen value. -/
def applyComboPair (S : Strategy) (d : Dict) (pair : String × ComboVal) : Dict :=
  match S.inputs.find? (fun f => f.key == pair.1) with
  | none => d
  | some feature =>
    if feature.isCategoricalDescriptorInput &&
        specsGet S.specs pair.1 == some CategoricalEncodingEnum.DESCRIPTOR then
      match pair.2 with
      | ComboVal.cat val =>
        dictUpdate d ((features2idx S pair.1).zip (feature.descriptorRow val))
      | ComboVal.num _ => d
    else if feature.isCategoricalInput then
      match pair.2 with
      | ComboVal.cat val =>
        dictUpdate d
          ((features2idx S pair.1).zip (to_onehot_encoding feature.categories val))
      | ComboVal.num _ => d
    else if feature.isDiscreteInput then
      match pair.2 with
      | ComboVal.num v => dictInsert d ((features2idx S pair.1).headD 0) v
      | ComboVal.cat _ => d
    else d

def get_categorical_combinations (S : Strategy) : List Dict :=
  let fixed_basis := get_fixed_features S
  if S.descriptor_method = CategoricalMethodEnum.FREE ∧
      S.discrete_method = CategoricalMethodEnum.FREE ∧
      S.categorical_method = CategoricalMethodEnum.FREE then
    [[]]
  else
    let combos := categoricalCombos S
    if combos.length = 1 then [fixed_basis]
    else combos.map (fun combo => combo.foldl (applyComboPair S) fixed_basis)

/-- C1 counterexample: for the strategy with the single fixed continuous
feature a (lower = upper = 3) and all three methods FREE, the base
fixed-feature dict is {0: 3} but `get_categorical_combinations` returns
`[{}]`, not the single-element list containing the base dict. -/
theorem get_categorical_combinations_all_free_counterexample :
    get_fixed_features
      { inputs := [Feature.continuous "a" 3 3], specs := [],
        categorical_method := CategoricalMethodEnum.FREE,
        descriptor_method := CategoricalMethodEnum.FREE,
        discrete_method := CategoricalMethodEnum.FREE } = [(0, 3)] ∧
    get_categorical_combinations
      { inputs := [Feature.continuous "a" 3 3], specs := [],
        categorical_method := CategoricalMethodEnum.FREE,
        descriptor_method := CategoricalMethodEnum.FREE,
        discrete_method := CategoricalMethodEnum.FREE } ≠
      [get_fixed_features
        { inputs := [Feature.continuous "a" 3 3], specs := [],
          categorical_method := CategoricalMethodEnum.FREE,
          descriptor_method := CategoricalMethodEnum.FREE,
          discrete_method := CategoricalMethodEnum.FREE }] := by
  constructor
  · decide
  · decide

/-- C1 (amended): for every strategy whose categorical, descriptor and
discrete methods are all FREE, `get_categorical_combinations` returns the
single-element list containing the empty fixed-feature dict, regardless of
the base dict computed by `get_fixed_features`. -/
theorem get_categorical_combinations_all_free (S : Strategy)
    (h1 : S.categorical_method = CategoricalMethodEnum.FREE)
    (h2 : S.descriptor_method = CategoricalMethodEnum.FREE)
    (h3 : S.discrete_method = CategoricalMethodEnum.FREE) :
    get_categorical_combinations S = [[]] := by
  unfold get_categorical_combinations
  exact if_pos ⟨h2, h3, h1⟩

/-- Witness for the amended C1 at the concrete all-FREE strategy. -/
theorem get_categorical_combinations_all_free_witness :
    get_categorical_combinations
      { inputs := [Feature.continuous "a" 3 3], specs := [],
        categorical_method := CategoricalMethodEnum.FREE,
        descriptor_method := CategoricalMethodEnum.FREE,
        discrete_method := CategoricalMethodEnum.FREE } = [[]] :=
  get_categorical_combinations_all_free _ rfl rfl rfl

/-- C5: when the categorical method is EXHAUSTIVE and the descriptor method is
not, categorical-descriptor features are excluded from enumeration; when both
are EXHAUSTIVE the exclusion is lifted, a non-fixed categorical-descriptor
feature occurring once among the inputs is enumerated exactly once, and the
overlay of a chosen category pins the feature's columns to that category's
descriptor-matrix row (the descriptor branch takes precedence over one-hot
pinning for descriptor-encoded features). -/
theorem categorical_combinations_descriptor_precedence (S : Strategy)
    (f : Feature) (hf : f.isCategoricalDescriptorInput = true) :
    (S.categorical_method = CategoricalMethodEnum.EXHAUSTIVE →
      S.descriptor_method ≠ CategoricalMethodEnum.EXHAUSTIVE →
      f ∉ enumeratedFeatures S) ∧
    (S.categorical_method = CategoricalMethodEnum.EXHAUSTIVE →
      S.descriptor_method = CategoricalMethodEnum.EXHAUSTIVE →
      f.is_fixed = false → S.inputs.count f = 1 →
      (enumeratedFeatures S).count f = 1) ∧
    (∀ d val, S.inputs.find? (fun g => g.key == f.key) = some f →
      specsGet S.specs f.key = some CategoricalEncodingEnum.DESCRIPTOR →
      applyComboPair S d (f.key, ComboVal.cat val) =
        dictUpdate d ((features2idx S f.key).zip (f.descriptorRow val))) := by
  refine ⟨?_, ?_, ?_⟩
  · intro hcat hdesc hmem
    have hexc : excludeClass S = some FeatureClass.CategoricalDescriptorInputCls := by
      unfold excludeClass
      rw [if_neg hdesc, if_pos hcat]
    have hp := (List.mem_filter.mp hmem).2
    rw [hexc] at hp
    simp only [Feature.isinstance, hf, Bool.not_true, Bool.and_false,
      Bool.false_and] at hp
    exact Bool.false_ne_true hp
  · intro hcat hdesc hfix hcount
    have hexc : excludeClass S = none := by
      unfold excludeClass
      rw [if_pos hdesc]
    have hinc : FeatureClass.CategoricalDescriptorInputCls ∈ effectiveInclude S := by
      have h1 : FeatureClass.CategoricalDescriptorInputCls ∈ includeClasses S := by
        unfold includeClasses
        rw [if_pos hdesc]
        simp
      have h2 : includeClasses S ≠ [] := by
        intro hc
        rw [hc] at h1
        exact List.not_mem_nil _ h1
      unfold effectiveInclude
      rw [if_neg h2]
      exact h1
    have hcatinp : f.isCategoricalInput = true := by
      rcases f with _ | _ | _ | _ | _ <;> simp_all [Feature.isCategoricalInput,
        Feature.isCategoricalDescriptorInput]
    have hany : ((effectiveInclude S).any (fun c => f.isinstance c)) = true :=
      List.any_eq_true.mpr ⟨FeatureClass.CategoricalDescriptorInputCls, hinc, by
        simp [Feature.isinstance, hf]⟩
    have hpred : (((effectiveInclude S).any (fun c => f.isinstance c)) &&
        !(match excludeClass S with
          | some c => f.isinstance c
          | none => false) &&
        (f.isCategoricalInput || f.isDiscreteInput) && !f.is_fixed) = true := by
      rw [hexc, hany, hcatinp, hfix]
      rfl
    have hcf : List.count f (List.filter (fun g : Feature =>
        ((effectiveInclude S).any (fun c => g.isinstance c)) &&
        !(match excludeClass S with
          | some c => g.isinstance c
          | none => false) &&
        (g.isCategoricalInput || g.isDiscreteInput) && !g.is_fixed) S.inputs) =
        List.count f S.inputs := List.count_filter hpred
    unfold enumeratedFeatures
    exact hcf.trans hcount
  · intro d val hfind hspec
    unfold applyComboPair
    rw [hfind]
    have hcond : (f.isCategoricalDescriptorInput &&
        specsGet S.specs f.key == some CategoricalEncodingEnum.DESCRIPTOR) = true := by
      rw [hf, hspec]
      rfl
    exact if_pos hcond

/-- Witness for C5 at concrete strategies over inputs a (continuous) and d
(categorical-descriptor, descriptor-encoded, categories c1, c2, descriptor
values 5 and 7): with categorical EXHAUSTIVE and descriptor FREE the feature d
is excluded from enumeration; with both EXHAUSTIVE it is enumerated exactly
once and the overlay for the chosen category c2 pins its descriptor column 1
to the matrix value 7. -/
theorem categorical_combinations_descriptor_precedence_witness :
    (Feature.categoricalDescriptor "d" ["c1", "c2"] [true, true] ["x"] [[5], [7]] ∉
      enumeratedFeatures
        { inputs := [Feature.continuous "a" 0 1,
            Feature.categoricalDescriptor "d" ["c1", "c2"] [true, true] ["x"] [[5], [7]]],
          specs := [("d", CategoricalEncodingEnum.DESCRIPTOR)],
          categorical_method := CategoricalMethodEnum.EXHAUSTIVE,
          descriptor_method := CategoricalMethodEnum.FREE,
          discrete_method := CategoricalMethodEnum.FREE }) ∧
    (enumeratedFeatures
        { inputs := [Feature.continuous "a" 0 1,
            Feature.categoricalDescriptor "d" ["c1", "c2"] [true, true] ["x"] [[5], [7]]],
          specs := [("d", CategoricalEncodingEnum.DESCRIPTOR)],
          categorical_method := CategoricalMethodEnum.EXHAUSTIVE,
          descriptor_method := CategoricalMethodEnum.EXHAUSTIVE,
          discrete_method := CategoricalMethodEnum.EXHAUSTIVE }).count
      (Feature.categoricalDescriptor "d" ["c1", "c2"] [true, true] ["x"] [[5], [7]]) = 1 ∧
    applyComboPair
      { inputs := [Feature.continuous "a" 0 1,
          Feature.categoricalDescriptor "d" ["c1", "c2"] [true, true] ["x"] [[5], [7]]],
        specs := [("d", CategoricalEncodingEnum.DESCRIPTOR)],
        categorical_method := CategoricalMethodEnum.EXHAUSTIVE,
        descriptor_method := CategoricalMethodEnum.EXHAUSTIVE,
        discrete_method := CategoricalMethodEnum.EXHAUSTIVE }
      [] ("d", ComboVal.cat "c2") = [(1, 7)] := by
  refine ⟨?_, ?_, ?_⟩
  · exact (categorical_combinations_descriptor_precedence _ _ (by decide)).1
      rfl (by decide)
  · exact (categorical_combinations_descriptor_precedence _ _ (by decide)).2.1
      rfl rfl (by decide) (by decide)
  · exact ((categorical_combinations_descriptor_precedence _
        (Feature.categoricalDescriptor "d" ["c1", "c2"] [true, true] ["x"] [[5], [7]])
        (by decide)).2.2
      [] "c2" (by decide) (by decide)).trans (by decide)

/-!
Column-layout lemmas: the transform registry allocates disjoint, ascending
column ranges to distinct feature keys, so the three loops of
`get_fixed_features` never overwrite another feature's pins.
-/

theorem tiLookup_cons_self (specs) (f : Feature) (fs : List Feature) (off : Nat) :
    tiLookup (_get_transform_info specs (f :: fs) off) f.key =
      (List.range (numCols (specsGet specs f.key) f)).map (fun j => off + j) := by
  unfold _get_transform_info tiLookup
  rw [List.find?_cons_of_pos _ (by simp)]
  rfl

theorem _get_transform_info_cons (specs) (f : Feature) (fs : List Feature)
    (off : Nat) :
    _get_transform_info specs (f :: fs) off =
      (f.key, (List.range (numCols (specsGet specs f.key) f)).map (fun j => off + j)) ::
        _get_transform_info specs fs (off + numCols (specsGet specs f.key) f) := rfl

theorem tiLookup_cons_ne (specs) (f : Feature) (fs : List Feature) (off : Nat)
    (k : String) (h : f.key ≠ k) :
    tiLookup (_get_transform_info specs (f :: fs) off) k =
      tiLookup (_get_transform_info specs fs
        (off + numCols (specsGet specs f.key) f)) k := by
  unfold tiLookup
  rw [_get_transform_info_cons, List.find?_cons_of_neg _ (by simpa using h)]

theorem tiLookup_ge (specs) (feats : List Feature) (off : Nat) (k : String) :
    ∀ c ∈ tiLookup (_get_transform_info specs feats off) k, off ≤ c := by
  induction feats generalizing off with
  | nil =>
    intro c hc
    simp [tiLookup, _get_transform_info, List.find?] at hc
  | cons f fs ih =>
    intro c hc
    by_cases hk : f.key = k
    · subst hk
      rw [tiLookup_cons_self] at hc
      rcases List.mem_map.mp hc with ⟨j, _, rfl⟩
      omega
    · rw [tiLookup_cons_ne specs f fs off k hk] at hc
      have := ih (off + numCols (specsGet specs f.key) f) c hc
      omega

theorem tiLookup_lt_of_self (specs) (f : Feature) (fs : List Feature) (off : Nat)
    (c : Nat) (hc : c ∈ tiLookup (_get_transform_info specs (f :: fs) off) f.key) :
    c < off + numCols (specsGet specs f.key) f := by
  rw [tiLookup_cons_self] at hc
  rcases List.mem_map.mp hc with ⟨j, hj, rfl⟩
  have := List.mem_range.mp hj
  omega

/-- Distinct feature keys own disjoint column sets. -/
theorem tiLookup_disjoint (specs) (feats : List Feature) (off : Nat)
    (hnodup : (feats.map Feature.key).Nodup) (k1 k2 : String) (hne : k1 ≠ k2) :
    ∀ c ∈ tiLookup (_get_transform_info specs feats off) k1,
      c ∉ tiLookup (_get_transform_info specs feats off) k2 := by
  induction feats generalizing off with
  | nil =>
    intro c hc
    simp [tiLookup, _get_transform_info, List.find?] at hc
  | cons f fs ih =>
    have hsplit : f.key ∉ fs.map Feature.key ∧ (fs.map Feature.key).Nodup :=
      List.nodup_cons.mp (by simpa using hnodup)
    intro c hc1 hc2
    by_cases h1 : f.key = k1
    · have hlt : c < off + numCols (specsGet specs f.key) f := by
        subst h1
        exact tiLookup_lt_of_self specs f fs off c hc1
      have h2 : f.key ≠ k2 := fun h => hne (h1.symm.trans h ▸ by rw [← h1, h])
      rw [tiLookup_cons_ne specs f fs off k2 h2] at hc2
      have := tiLookup_ge specs fs (off + numCols (specsGet specs f.key) f) k2 c hc2
      omega
    · by_cases h2 : f.key = k2
      · have hlt : c < off + numCols (specsGet specs f.key) f := by
          subst h2
          exact tiLookup_lt_of_self specs f fs off c hc2
        rw [tiLookup_cons_ne specs f fs off k1 h1] at hc1
        have := tiLookup_ge specs fs (off + numCols (specsGet specs f.key) f) k1 c hc1
        omega
      · rw [tiLookup_cons_ne specs f fs off k1 h1] at hc1
        rw [tiLookup_cons_ne specs f fs off k2 h2] at hc2
        exact ih _ hsplit.2 c hc1 hc2

/-- For a feature of the list (unique keys), its allocated columns are a
contiguous ascending range of length `numCols`. -/
theorem tiLookup_of_mem (specs) (feats : List Feature) (off : Nat)
    (hnodup : (feats.map Feature.key).Nodup) (f : Feature) (hf : f ∈ feats) :
    ∃ o, tiLookup (_get_transform_info specs feats off) f.key =
      (List.range (numCols (specsGet specs f.key) f)).map (fun j => o + j) := by
  induction feats generalizing off with
  | nil => exact absurd hf (List.not_mem_nil f)
  | cons g fs ih =>
    have hsplit : g.key ∉ fs.map Feature.key ∧ (fs.map Feature.key).Nodup :=
      List.nodup_cons.mp (by simpa using hnodup)
    rcases List.mem_cons.mp hf with rfl | hmem
    · exact ⟨off, tiLookup_cons_self specs f fs off⟩
    · have hne : g.key ≠ f.key := by
        intro h
        exact hsplit.1 (h ▸ List.mem_map_of_mem Feature.key hmem)
      rw [tiLookup_cons_ne specs g fs off f.key hne]
      exact ih _ hsplit.2 hmem

theorem features2idx_nodup (S : Strategy)
    (hnodup : (S.inputs.map Feature.key).Nodup) (f : Feature) (hf : f ∈ S.inputs) :
    (features2idx S f.key).Nodup ∧
      (features2idx S f.key).length = numCols (specsGet S.specs f.key) f := by
  rcases tiLookup_of_mem S.specs S.inputs 0 hnodup f hf with ⟨o, ho⟩
  unfold features2idx
  rw [ho]
  constructor
  · exact (List.nodup_range _).map (fun a b h => by omega)
  · simp

/-!
Generic lemmas for the sequential per-feature loops of `get_fixed_features`.
-/

theorem dictLookup_update_of_not_mem_keys (d1 : Dict) (d2 : List (Nat × Rat))
    (c : Nat) (h : c ∉ dictKeys d2) :
    dictLookup (dictUpdate d1 d2) c = dictLookup d1 c := by
  induction d2 generalizing d1 with
  | nil => rfl
  | cons p t ih =>
    have h1 : ¬ p.1 = c := fun h' => h (List.mem_cons.mpr (Or.inl h'.symm))
    have h2 : c ∉ dictKeys t := fun h' => h (List.mem_cons.mpr (Or.inr h'))
    show dictLookup (dictUpdate (dictInsert d1 p.1 p.2) t) c = _
    rw [ih _ h2, dictLookup_insert, if_neg (fun h' : c = p.1 => h1 h'.symm)]

/-- If every binding of `d2` carries the same value `v` and `c` is one of its
keys, the merged dict maps `c` to `v` (no key-uniqueness needed). -/
theorem dictLookup_update_mem_const (d1 : Dict) (d2 : List (Nat × Rat))
    (c : Nat) (v : Rat) (hval : ∀ p ∈ d2, p.2 = v) (hmem : c ∈ dictKeys d2) :
    dictLookup (dictUpdate d1 d2) c = some v := by
  induction d2 generalizing d1 with
  | nil => exact absurd hmem (List.not_mem_nil c)
  | cons p t ih =>
    show dictLookup (dictUpdate (dictInsert d1 p.1 p.2) t) c = some v
    by_cases hmt : c ∈ dictKeys t
    · exact ih (dictInsert d1 p.1 p.2)
        (fun q hq => hval q (List.mem_cons.mpr (Or.inr hq))) hmt
    · have hc : c = p.1 := by
        rcases List.mem_cons.mp hmem with h | h
        · exact h
        · exact absurd h hmt
      rw [dictLookup_update_of_not_mem_keys _ _ _ hmt, dictLookup_insert,
        if_pos hc, hval p (List.mem_cons.mpr (Or.inl rfl))]

theorem loopWrites_frame (step : Feature → List (Nat × Rat)) (fs : List Feature)
    (d : Dict) (c : Nat) (h : ∀ f ∈ fs, c ∉ dictKeys (step f)) :
    dictLookup (loopWrites step fs d) c = dictLookup d c := by
  induction fs generalizing d with
  | nil => rfl
  | cons f fs ih =>
    show dictLookup (loopWrites step fs (dictUpdate d (step f))) c = _
    rw [ih _ (fun g hg => h g (List.mem_cons.mpr (Or.inr hg))),
      dictLookup_update_of_not_mem_keys _ _ _ (h f (List.mem_cons.mpr (Or.inl rfl)))]

/-- A loop writes the target feature's binding for column `c` (the step list
having unique keys), and no later feature writes `c` again. -/
theorem loopWrites_target_nodup (step : Feature → List (Nat × Rat))
    (l1 l2 : List Feature) (f : Feature) (d : Dict) (c : Nat) (v : Rat)
    (hlook : dictLookup (step f) c = some v)
    (hnd : (dictKeys (step f)).Nodup)
    (hlater : ∀ g ∈ l2, c ∉ dictKeys (step g)) :
    dictLookup (loopWrites step (l1 ++ f :: l2) d) c = some v := by
  induction l1 generalizing d with
  | nil =>
    show dictLookup (loopWrites step l2 (dictUpdate d (step f))) c = some v
    rw [loopWrites_frame step l2 _ c hlater,
      dictLookup_update _ _ _ hnd, hlook]
    rfl
  | cons g l1 ih =>
    exact ih (dictUpdate d (step g))

/-- A loop whose target step pins column `c` (all its pins carrying value `v`),
with no later feature writing `c` again. -/
theorem loopWrites_target_const (step : Feature → List (Nat × Rat))
    (l1 l2 : List Feature) (f : Feature) (d : Dict) (c : Nat) (v : Rat)
    (hval : ∀ p ∈ step f, p.2 = v)
    (hmem : c ∈ dictKeys (step f))
    (hlater : ∀ g ∈ l2, c ∉ dictKeys (step g)) :
    dictLookup (loopWrites step (l1 ++ f :: l2) d) c = some v := by
  induction l1 generalizing d with
  | nil =>
    show dictLookup (loopWrites step l2 (dictUpdate d (step f))) c = some v
    rw [loopWrites_frame step l2 _ c hlater,
      dictLookup_update_mem_const _ _ _ _ hval hmem]
  | cons g l1 ih =>
    exact ih (dictUpdate d (step g))

/-!
Write-set lemmas: each loop step of `get_fixed_features` writes only columns
owned by its own feature.
-/

theorem dictLookup_zip_get (cols : List Nat) (vals : List Rat) (j : Nat)
    (hnd : cols.Nodup) (hj : j < cols.length) (hv : j < vals.length) :
    dictLookup (cols.zip vals) cols[j] = some vals[j] := by
  induction cols generalizing vals j with
  | nil => simp at hj
  | cons c cs ih =>
    rcases vals with _ | ⟨v, vs⟩
    · simp at hv
    · rcases j with _ | j
      · simp [dictLookup]
      · have hj' : j < cs.length := by simpa using hj
        have hv' : j < vs.length := by simpa using hv
        have hne : ¬ c = cs[j] :=
          fun h => (List.nodup_cons.mp hnd).1 (h ▸ cs.getElem_mem hj')
        simp only [List.getElem_cons_succ]
        show (if c = cs[j] then some v else dictLookup (cs.zip vs) cs[j]) = some vs[j]
        rw [if_neg hne]
        exact ih vs j (List.nodup_cons.mp hnd).2 hj' hv'

theorem mem_keys_zip {cols : List Nat} {vals : List Rat} {c : Nat}
    (h : c ∈ dictKeys (cols.zip vals)) : c ∈ cols := by
  induction cols generalizing vals with
  | nil => simp [dictKeys] at h
  | cons a as ih =>
    rcases vals with _ | ⟨v, vs⟩
    · simp [dictKeys] at h
    · rcases List.mem_cons.mp h with h | h
      · exact List.mem_cons.mpr (Or.inl h)
      · exact List.mem_cons.mpr (Or.inr (ih h))

theorem mem_keys_fixedValuePins {S : Strategy} {f : Feature} {c : Nat}
    (h : c ∈ dictKeys (fixedValuePins S f)) : c ∈ features2idx S f.key := by
  unfold fixedValuePins at h
  rcases hfv : f.fixed_value (specsGet S.specs f.key) with _ | vals
  · rw [hfv] at h
    simp [dictKeys] at h
  · rw [hfv] at h
    exact mem_keys_zip h

theorem mem_keys_forbiddenOneHotPins {S : Strategy} {f : Feature} {c : Nat}
    (h : c ∈ dictKeys (forbiddenOneHotPins S f)) : c ∈ features2idx S f.key := by
  unfold forbiddenOneHotPins at h
  by_cases hfix : f.is_fixed
  · rw [if_pos hfix] at h
    simp [dictKeys] at h
  · rw [if_neg hfix] at h
    rcases List.mem_map.mp h with ⟨p, hp, hpc⟩
    rcases List.mem_flatMap.mp hp with ⟨cat, _, hpin⟩
    rcases List.mem_map.mp hpin with ⟨q, hq, rfl⟩
    have hq1 : q ∈ (features2idx S f.key).zip (to_onehot_encoding f.categories cat) :=
      (List.mem_filter.mp hq).1
    have : q.1 ∈ dictKeys ((features2idx S f.key).zip
        (to_onehot_encoding f.categories cat)) :=
      List.mem_map_of_mem Prod.fst hq1
    rw [← hpc]
    exact mem_keys_zip this

theorem mem_keys_descriptorFixedPins {S : Strategy} {f : Feature} {c : Nat}
    (h : c ∈ dictKeys (descriptorFixedPins S f)) : c ∈ features2idx S f.key := by
  unfold descriptorFixedPins at h
  by_cases hfix : f.is_fixed
  · rw [if_pos hfix] at h
    simp [dictKeys] at h
  · rw [if_neg hfix] at h
    rcases List.mem_map.mp h with ⟨p, hp, hpc⟩
    rcases List.mem_map.mp hp with ⟨q, hq, rfl⟩
    have hqe : q ∈ (features2idx S f.key).enum := (List.mem_filter.mp hq).1
    have hget : (features2idx S f.key)[q.1]? = some q.2 :=
      List.mem_enum_iff_getElem?.mp hqe
    rw [← hpc]
    exact List.getElem?_mem hget

/-- Unique keys identify features within the input list. -/
theorem feature_key_injective {S : Strategy}
    (hnodup : (S.inputs.map Feature.key).Nodup) {f g : Feature}
    (hf : f ∈ S.inputs) (hg : g ∈ S.inputs) (h : f.key = g.key) : f = g :=
  List.inj_on_of_nodup_map hnodup hf hg h

/-- A column of one feature is not a column of a feature with another key. -/
theorem not_mem_features2idx_of_ne (S : Strategy)
    (hnodup : (S.inputs.map Feature.key).Nodup) (k1 k2 : String) (hne : k1 ≠ k2)
    (c : Nat) (hc : c ∈ features2idx S k1) : c ∉ features2idx S k2 :=
  tiLookup_disjoint S.specs S.inputs 0 hnodup k1 k2 hne c hc

theorem dictKeys_zip (cols : List Nat) (vals : List Rat) :
    dictKeys (cols.zip vals) = cols.take vals.length := by
  induction cols generalizing vals with
  | nil => simp [dictKeys]
  | cons c cs ih =>
    rcases vals with _ | ⟨v, vs⟩
    · simp [dictKeys]
    · show c :: dictKeys (cs.zip vs) = c :: cs.take vs.length
      rw [ih]

theorem mem_zip_of_getElem {α β : Type} (l1 : List α) (l2 : List β) (j : Nat)
    (h1 : j < l1.length) (h2 : j < l2.length) : (l1[j], l2[j]) ∈ l1.zip l2 := by
  induction l1 generalizing l2 j with
  | nil => simp at h1
  | cons a as ih =>
    rcases l2 with _ | ⟨b, bs⟩
    · simp at h2
    · rcases j with _ | j
      · simp
      · simp only [List.getElem_cons_succ]
        exact List.mem_cons.mpr (Or.inr (ih bs j (by simpa using h1) (by simpa using h2)))

/-- After the first loop, a feature with encoded fixed values has each of its
columns pinned to the corresponding value. -/
theorem gffFixedOnly_lookup_fixed (S : Strategy)
    (hnodup : (S.inputs.map Feature.key).Nodup) (f : Feature) (hf : f ∈ S.inputs)
    (vals : List Rat) (hfv : f.fixed_value (specsGet S.specs f.key) = some vals)
    (j : Nat) (hjc : j < (features2idx S f.key).length) (hjv : j < vals.length) :
    dictLookup (gffFixedOnly S) (features2idx S f.key)[j] = some vals[j] := by
  rcases List.append_of_mem hf with ⟨l1, l2, hsplit⟩
  have hkeyl2 : ∀ g ∈ l2, g.key ≠ f.key := by
    intro g hg
    have hnd : (List.map Feature.key l1 ++
        f.key :: List.map Feature.key l2).Nodup := by
      have := hsplit ▸ hnodup
      simpa using this
    have hfnot : f.key ∉ List.map Feature.key l2 :=
      (List.nodup_cons.mp hnd.of_append_right).1
    intro hc
    exact hfnot (hc ▸ List.mem_map_of_mem Feature.key hg)
  unfold gffFixedOnly
  rw [hsplit]
  apply loopWrites_target_nodup
  · unfold fixedValuePins
    rw [hfv]
    exact dictLookup_zip_get _ _ j (features2idx_nodup S hnodup f hf).1 hjc hjv
  · unfold fixedValuePins
    rw [hfv, dictKeys_zip]
    exact (features2idx_nodup S hnodup f hf).1.sublist (List.take_sublist _ _)
  · intro g hg hcmem
    have hgin : g ∈ S.inputs := by
      rw [hsplit]
      exact List.mem_append.mpr (Or.inr (List.mem_cons.mpr (Or.inr hg)))
    exact not_mem_features2idx_of_ne S hnodup f.key g.key
      (fun h => hkeyl2 g hg h.symm) _ (List.getElem_mem hjc)
      (mem_keys_fixedValuePins hcmem)

/-- After the first loop, a column of a feature with no fixed value is
unbound. -/
theorem gffFixedOnly_lookup_none (S : Strategy)
    (hnodup : (S.inputs.map Feature.key).Nodup) (f : Feature) (hf : f ∈ S.inputs)
    (hfv : f.fixed_value (specsGet S.specs f.key) = none)
    (c : Nat) (hc : c ∈ features2idx S f.key) :
    dictLookup (gffFixedOnly S) c = none := by
  unfold gffFixedOnly
  rw [loopWrites_frame]
  · rfl
  · intro g hg hcmem
    by_cases hkey : g.key = f.key
    · have hgf : g = f := feature_key_injective hnodup hg hf hkey
      subst hgf
      unfold fixedValuePins at hcmem
      rw [hfv] at hcmem
      simp [dictKeys] at hcmem
    · exact not_mem_features2idx_of_ne S hnodup f.key g.key
        (fun h => hkey h.symm) c hc (mem_keys_fixedValuePins hcmem)

/-- The second loop does not touch a column of a feature that is either not a
one-hot categorical or contributes no forbidden pins. -/
theorem gffAfterOneHot_lookup_frame (S : Strategy)
    (hnodup : (S.inputs.map Feature.key).Nodup) (f : Feature) (hf : f ∈ S.inputs)
    (c : Nat) (hc : c ∈ features2idx S f.key)
    (hstep : f.isCategoricalInput = false ∨ forbiddenOneHotPins S f = []) :
    dictLookup (gffAfterOneHot S) c = dictLookup (gffFixedOnly S) c := by
  unfold gffAfterOneHot
  by_cases hcond : (S.categorical_method == CategoricalMethodEnum.FREE &&
      (S.specs.map Prod.snd).contains CategoricalEncodingEnum.ONE_HOT) = true
  · rw [if_pos hcond, loopWrites_frame]
    intro g hg hcmem
    have hgin : g ∈ S.inputs := (List.mem_filter.mp hg).1
    by_cases hkey : g.key = f.key
    · have hgf : g = f := feature_key_injective hnodup hgin hf hkey
      subst hgf
      rcases hstep with hstep | hstep
      · have := (List.mem_filter.mp hg).2
        rw [hstep] at this
        simp at this
      · rw [hstep] at hcmem
        simp [dictKeys] at hcmem
    · exact not_mem_features2idx_of_ne S hnodup f.key g.key
        (fun h => hkey h.symm) c hc (mem_keys_forbiddenOneHotPins hcmem)
  · rw [if_neg hcond]

/-- The third loop does not touch a column of a feature that is either not a
categorical-descriptor input or contributes no degenerate-column pins. -/
theorem get_fixed_features_lookup_frame3 (S : Strategy)
    (hnodup : (S.inputs.map Feature.key).Nodup) (f : Feature) (hf : f ∈ S.inputs)
    (c : Nat) (hc : c ∈ features2idx S f.key)
    (hstep : f.isCategoricalDescriptorInput = false ∨ descriptorFixedPins S f = []) :
    dictLookup (get_fixed_features S) c = dictLookup (gffAfterOneHot S) c := by
  unfold get_fixed_features
  by_cases hcond : (S.descriptor_method == CategoricalMethodEnum.FREE &&
      (S.specs.map Prod.snd).contains CategoricalEncodingEnum.DESCRIPTOR) = true
  · rw [if_pos hcond, loopWrites_frame]
    intro g hg hcmem
    have hgin : g ∈ S.inputs := (List.mem_filter.mp hg).1
    by_cases hkey : g.key = f.key
    · have hgf : g = f := feature_key_injective hnodup hgin hf hkey
      subst hgf
      rcases hstep with hstep | hstep
      · have := (List.mem_filter.mp hg).2
        rw [hstep] at this
        simp at this
      · rw [hstep] at hcmem
        simp [dictKeys] at hcmem
    · exact not_mem_features2idx_of_ne S hnodup f.key g.key
        (fun h => hkey h.symm) c hc (mem_keys_descriptorFixedPins hcmem)
  · rw [if_neg hcond]

theorem forbiddenOneHotPins_val_zero {S : Strategy} {f : Feature} :
    ∀ p ∈ forbiddenOneHotPins S f, p.2 = 0 := by
  intro p hp
  unfold forbiddenOneHotPins at hp
  by_cases hfix : f.is_fixed
  · rw [if_pos hfix] at hp
    simp at hp
  · rw [if_neg hfix] at hp
    rcases List.mem_flatMap.mp hp with ⟨cat, _, hpin⟩
    rcases List.mem_map.mp hpin with ⟨q, _, rfl⟩
    rfl

/-- When the second loop runs, a column carrying a forbidden one-hot pin of a
one-hot categorical input ends up pinned to 0. -/
theorem gffAfterOneHot_lookup_forbidden (S : Strategy)
    (hnodup : (S.inputs.map Feature.key).Nodup)
    (hfree : S.categorical_method = CategoricalMethodEnum.FREE)
    (hcont : (S.specs.map Prod.snd).contains CategoricalEncodingEnum.ONE_HOT = true)
    (f : Feature) (hf : f ∈ S.inputs) (hcat : f.isCategoricalInput = true)
    (hspec : specsGet S.specs f.key = some CategoricalEncodingEnum.ONE_HOT)
    (c : Nat) (hc : c ∈ dictKeys (forbiddenOneHotPins S f)) :
    dictLookup (gffAfterOneHot S) c = some 0 := by
  unfold gffAfterOneHot
  rw [if_pos (by rw [hfree, hcont]; rfl)]
  have hmemf : f ∈ oneHotCategoricals S :=
    List.mem_filter.mpr ⟨hf, by rw [hcat, hspec]; rfl⟩
  rcases List.append_of_mem hmemf with ⟨l1, l2, hsplit⟩
  have hndfilter : ((oneHotCategoricals S).map Feature.key).Nodup :=
    hnodup.sublist ((List.filter_sublist S.inputs).map Feature.key)
  have hkeyl2 : ∀ g ∈ l2, g.key ≠ f.key := by
    intro g hg
    have hnd : (List.map Feature.key l1 ++
        f.key :: List.map Feature.key l2).Nodup := by
      have := hsplit ▸ hndfilter
      simpa using this
    have hfnot : f.key ∉ List.map Feature.key l2 :=
      (List.nodup_cons.mp hnd.of_append_right).1
    intro hceq
    exact hfnot (hceq ▸ List.mem_map_of_mem Feature.key hg)
  rw [hsplit]
  apply loopWrites_target_const
  · exact forbiddenOneHotPins_val_zero
  · exact hc
  · intro g hg hcmem
    have hccols : c ∈ features2idx S f.key := mem_keys_forbiddenOneHotPins hc
    exact not_mem_features2idx_of_ne S hnodup f.key g.key
      (fun h => hkeyl2 g hg h.symm) c hccols (mem_keys_forbiddenOneHotPins hcmem)

/-- Column `j` of a non-fixed categorical whose category `j` is forbidden is
among the keys written by the forbidden-one-hot loop step. -/
theorem forbidden_col_mem_keys (S : Strategy) (key : String) (cats : List String)
    (al : List Bool) (hfix : (Feature.categorical key cats al).is_fixed = false)
    (j : Nat) (hj : j < cats.length) (hjc : j < (features2idx S key).length)
    (hal : al[j]? = some false) :
    (features2idx S key)[j] ∈
      dictKeys (forbiddenOneHotPins S (Feature.categorical key cats al)) := by
  have hjal : j < al.length := by
    by_contra hcon
    rw [List.getElem?_eq_none (by omega)] at hal
    exact Option.noConfusion hal
  have halj : al[j] = false := by
    rw [List.getElem?_eq_getElem hjal] at hal
    exact Option.some.inj hal
  have hzip : (cats[j], al[j]) ∈ cats.zip al := mem_zip_of_getElem cats al j hj hjal
  have hfilter : (cats[j], al[j]) ∈ (cats.zip al).filter (fun p => !p.2) :=
    List.mem_filter.mpr ⟨hzip, by rw [halj]; rfl⟩
  have hcatmem : cats[j] ∈
      (Feature.categorical key cats al).get_forbidden_categories :=
    List.mem_map_of_mem Prod.fst hfilter
  have hohlen : j < (to_onehot_encoding cats cats[j]).length := by
    unfold to_onehot_encoding
    simpa using hj
  have honehot : (to_onehot_encoding cats cats[j])[j] = 1 := by
    unfold to_onehot_encoding
    rw [List.getElem_map, if_pos rfl]
  have hq : ((features2idx S key)[j], (to_onehot_encoding cats cats[j])[j]) ∈
      (features2idx S key).zip (to_onehot_encoding cats cats[j]) :=
    mem_zip_of_getElem _ _ j hjc hohlen
  have hqf : ((features2idx S key)[j], (to_onehot_encoding cats cats[j])[j]) ∈
      ((features2idx S key).zip (to_onehot_encoding cats cats[j])).filter
        (fun p => p.2 == 1) :=
    List.mem_filter.mpr ⟨hq, by rw [honehot]; rfl⟩
  have hpin : ((features2idx S key)[j], (0 : Rat)) ∈
      (((features2idx S key).zip (to_onehot_encoding cats cats[j])).filter
        (fun p => p.2 == 1)).map (fun p => (p.1, (0 : Rat))) :=
    List.mem_map_of_mem (fun p => (p.1, (0 : Rat))) hqf
  have hflat : ((features2idx S key)[j], (0 : Rat)) ∈
      (Feature.categorical key cats al).get_forbidden_categories.flatMap
        (fun cat =>
          (((features2idx S key).zip (to_onehot_encoding cats cat)).filter
            (fun p => p.2 == 1)).map (fun p => (p.1, (0 : Rat)))) :=
    List.mem_flatMap.mpr ⟨cats[j], hcatmem, hpin⟩
  show (features2idx S key)[j] ∈
    dictKeys (forbiddenOneHotPins S (Feature.categorical key cats al))
  unfold forbiddenOneHotPins
  rw [if_neg (by rw [hfix]; exact Bool.false_ne_true)]
  exact List.mem_map_of_mem Prod.fst hflat

/-- C6: the dict of `get_fixed_features` pins every column of every fixed
feature to its encoded value: a continuous feature with lower = upper = v has
its column pinned to v, a one-hot categorical with exactly one allowed
category has each one-hot column pinned to 1 at that category and 0 at its
siblings; additionally, when the categorical method is FREE and a one-hot spec
is present, every forbidden one-hot column of every non-fixed one-hot
categorical is pinned to 0.  Keys are unique within a domain (data-model
invariant). -/
theorem get_fixed_features_spec (S : Strategy)
    (hnodup : (S.inputs.map Feature.key).Nodup) :
    (∀ key v, Feature.continuous key v v ∈ S.inputs →
      ∀ c ∈ features2idx S key, dictLookup (get_fixed_features S) c = some v) ∧
    (∀ key cats al cstar, Feature.categorical key cats al ∈ S.inputs →
      specsGet S.specs key = some CategoricalEncodingEnum.ONE_HOT →
      (Feature.categorical key cats al).get_allowed_categories = [cstar] →
      ∀ j, ∀ hj : j < cats.length, ∀ hjc : j < (features2idx S key).length,
        dictLookup (get_fixed_features S) (features2idx S key)[j] =
          some (if cats[j] = cstar then 1 else 0)) ∧
    (S.categorical_method = CategoricalMethodEnum.FREE →
      (S.specs.map Prod.snd).contains CategoricalEncodingEnum.ONE_HOT = true →
      ∀ key cats al, Feature.categorical key cats al ∈ S.inputs →
        specsGet S.specs key = some CategoricalEncodingEnum.ONE_HOT →
        (Feature.categorical key cats al).is_fixed = false →
        ∀ j, j < cats.length → ∀ hjc : j < (features2idx S key).length,
          al[j]? = some false →
          dictLookup (get_fixed_features S) (features2idx S key)[j] = some 0) := by
  refine ⟨?_, ?_, ?_⟩
  · intro key v hmem c hcmem
    have hfv : (Feature.continuous key v v).fixed_value
        (specsGet S.specs (Feature.continuous key v v).key) = some [v] := by
      show (if v = v then some [v] else none) = some [v]
      rw [if_pos rfl]
    have hc1 : (features2idx S key).length = 1 := by
      have := (features2idx_nodup S hnodup (Feature.continuous key v v) hmem).2
      simpa [Feature.key] using this
    have htarget := gffFixedOnly_lookup_fixed S hnodup (Feature.continuous key v v)
      hmem [v] hfv 0 (by simpa [Feature.key] using Nat.lt_of_lt_of_eq Nat.zero_lt_one hc1.symm)
      Nat.zero_lt_one
    have hceq : c = (features2idx S key)[0] := by
      rcases List.length_eq_one.mp hc1 with ⟨a, ha⟩
      simp only [ha, List.getElem_cons_zero]
      rw [ha] at hcmem
      simpa using hcmem
    rw [get_fixed_features_lookup_frame3 S hnodup (Feature.continuous key v v)
        hmem c hcmem (Or.inl rfl),
      gffAfterOneHot_lookup_frame S hnodup (Feature.continuous key v v)
        hmem c hcmem (Or.inl rfl),
      hceq]
    exact htarget
  · intro key cats al cstar hmem hspec h1 j hj hjc
    have hfv : (Feature.categorical key cats al).fixed_value
        (specsGet S.specs (Feature.categorical key cats al).key) =
        some (to_onehot_encoding cats cstar) := by
      show (Feature.categorical key cats al).fixed_value (specsGet S.specs key) = _
      rw [hspec]
      show (if (Feature.categorical key cats al).get_allowed_categories.length = 1
          then some (to_onehot_encoding (Feature.categorical key cats al).categories
            ((Feature.categorical key cats al).get_allowed_categories.headD ""))
          else none) = some (to_onehot_encoding cats cstar)
      rw [h1]
      rfl
    have hvlen : j < (to_onehot_encoding cats cstar).length := by
      unfold to_onehot_encoding
      simpa using hj
    have htarget := gffFixedOnly_lookup_fixed S hnodup
      (Feature.categorical key cats al) hmem _ hfv j hjc hvlen
    have hfixed : (Feature.categorical key cats al).is_fixed = true := by
      show ((Feature.categorical key cats al).get_allowed_categories.length == 1) = true
      rw [h1]
      rfl
    have hstep2 : forbiddenOneHotPins S (Feature.categorical key cats al) = [] := by
      unfold forbiddenOneHotPins
      rw [if_pos hfixed]
    have hcmem : (features2idx S key)[j] ∈ features2idx S key :=
      List.getElem_mem hjc
    rw [get_fixed_features_lookup_frame3 S hnodup (Feature.categorical key cats al)
        hmem _ hcmem (Or.inl rfl),
      gffAfterOneHot_lookup_frame S hnodup (Feature.categorical key cats al)
        hmem _ hcmem (Or.inr hstep2)]
    refine htarget.trans ?_
    have : (to_onehot_encoding cats cstar)[j] =
        (if cats[j] = cstar then 1 else 0) := by
      unfold to_onehot_encoding
      rw [List.getElem_map]
    rw [this]
  · intro hfree hcont key cats al hmem hspec hfix j hj hjc hal
    have hkeymem : (features2idx S key)[j] ∈
        dictKeys (forbiddenOneHotPins S (Feature.categorical key cats al)) :=
      forbidden_col_mem_keys S key cats al hfix j hj hjc hal
    have hc2 := gffAfterOneHot_lookup_forbidden S hnodup hfree hcont
      (Feature.categorical key cats al) hmem rfl hspec _ hkeymem
    have hcmem : (features2idx S key)[j] ∈ features2idx S key :=
      List.getElem_mem hjc
    rw [get_fixed_features_lookup_frame3 S hnodup (Feature.categorical key cats al)
        hmem _ hcmem (Or.inl rfl)]
    exact hc2

/-- Witness for C6 at a concrete strategy: fixed continuous a = 3 pins column
0 to 3; fixed one-hot categorical b (only c2 allowed) pins its columns 1, 2 to
0, 1; with the categorical method FREE, the non-fixed one-hot categorical c
(d2 forbidden) has its column 4 pinned to 0. -/
theorem get_fixed_features_spec_witness :
    dictLookup (get_fixed_features
      { inputs := [Feature.continuous "a" 3 3,
          Feature.categorical "b" ["c1", "c2"] [false, true],
          Feature.categorical "c" ["d1", "d2", "d3"] [true, false, true]],
        specs := [("b", CategoricalEncodingEnum.ONE_HOT),
          ("c", CategoricalEncodingEnum.ONE_HOT)],
        categorical_method := CategoricalMethodEnum.FREE,
        descriptor_method := CategoricalMethodEnum.FREE,
        discrete_method := CategoricalMethodEnum.FREE }) 0 = some 3 ∧
    dictLookup (get_fixed_features
      { inputs := [Feature.continuous "a" 3 3,
          Feature.categorical "b" ["c1", "c2"] [false, true],
          Feature.categorical "c" ["d1", "d2", "d3"] [true, false, true]],
        specs := [("b", CategoricalEncodingEnum.ONE_HOT),
          ("c", CategoricalEncodingEnum.ONE_HOT)],
        categorical_method := CategoricalMethodEnum.FREE,
        descriptor_method := CategoricalMethodEnum.FREE,
        discrete_method := CategoricalMethodEnum.FREE }) 1 = some 0 ∧
    dictLookup (get_fixed_features
      { inputs := [Feature.continuous "a" 3 3,
          Feature.categorical "b" ["c1", "c2"] [false, true],
          Feature.categorical "c" ["d1", "d2", "d3"] [true, false, true]],
        specs := [("b", CategoricalEncodingEnum.ONE_HOT),
          ("c", CategoricalEncodingEnum.ONE_HOT)],
        categorical_method := CategoricalMethodEnum.FREE,
        descriptor_method := CategoricalMethodEnum.FREE,
        discrete_method := CategoricalMethodEnum.FREE }) 2 = some 1 ∧
    dictLookup (get_fixed_features
      { inputs := [Feature.continuous "a" 3 3,
          Feature.categorical "b" ["c1", "c2"] [false, true],
          Feature.categorical "c" ["d1", "d2", "d3"] [true, false, true]],
        specs := [("b", CategoricalEncodingEnum.ONE_HOT),
          ("c", CategoricalEncodingEnum.ONE_HOT)],
        categorical_method := CategoricalMethodEnum.FREE,
        descriptor_method := CategoricalMethodEnum.FREE,
        discrete_method := CategoricalMethodEnum.FREE }) 4 = some 0 := by
  refine ⟨?_, ?_, ?_, ?_⟩
  · exact (get_fixed_features_spec _ (by decide)).1 "a" 3 (by decide) 0 (by decide)
  · exact ((get_fixed_features_spec _ (by decide)).2.1 "b" ["c1", "c2"]
      [false, true] "c2" (by decide) (by decide) (by decide) 0 (by decide)
      (by decide)).trans (by decide)
  · exact ((get_fixed_features_spec _ (by decide)).2.1 "b" ["c1", "c2"]
      [false, true] "c2" (by decide) (by decide) (by decide) 1 (by decide)
      (by decide)).trans (by decide)
  · exact (get_fixed_features_spec _ (by decide)).2.2 rfl (by decide) "c"
      ["d1", "d2", "d3"] [true, false, true] (by decide) (by decide) (by decide)
      1 (by decide) (by decide) (by decide)

/-!
Embedding of the dispatch of `BotorchStrategy._ask`
(src/bofire/strategies/predictives/botorch.py, lines 177-243).  The guard
inputs are the quantities the code computes from the domain: the number of
categorical/discrete input features, the number of the domain's categorical
combinations, and the number of n-choose-k constraints; which optimizer call
is made is a pure function of them and the three method selectors.
-/

inductive AskBranch
  | continuousOpt
  | mixedCategorical
  | mixedNChooseK
  | configError
deriving DecidableEq, Repr

def askBranch (num_categorical_features num_categorical_combinations : Nat)
    (categorical_method descriptor_method discrete_method : CategoricalMethodEnum)
    (num_nchoosek : Nat) : AskBranch :=
  if (num_categorical_features = 0 ∨ num_categorical_combinations = 1 ∨
      (categorical_method = CategoricalMethodEnum.FREE ∧
        descriptor_method = CategoricalMethodEnum.FREE ∧
        discrete_method = CategoricalMethodEnum.FREE)) ∧ num_nchoosek = 0 then
    AskBranch.continuousOpt
  else if (CategoricalMethodEnum.EXHAUSTIVE ∈
      [categorical_method, descriptor_method, discrete_method]) ∧
      num_nchoosek = 0 then
    AskBranch.mixedCategorical
  else if num_nchoosek > 0 then
    AskBranch.mixedNChooseK
  else
    AskBranch.configError

theorem method_free_or_exhaustive (m : CategoricalMethodEnum) :
    m = CategoricalMethodEnum.EXHAUSTIVE ∨ m = CategoricalMethodEnum.FREE := by
  rcases m with _ | _
  · exact Or.inl rfl
  · exact Or.inr rfl

/-- C2 counterexample: a domain with one categorical feature whose
enumeration collapses to a single combination, all methods EXHAUSTIVE and no
n-choose-k constraints takes the single-continuous-optimization branch, while
the claim's condition for that branch (no categorical features or all methods
FREE) is false there. -/
theorem askBranch_counterexample :
    askBranch 1 1 CategoricalMethodEnum.EXHAUSTIVE CategoricalMethodEnum.EXHAUSTIVE
      CategoricalMethodEnum.EXHAUSTIVE 0 = AskBranch.continuousOpt ∧
    ¬ (((1 : Nat) = 0 ∨
        (CategoricalMethodEnum.EXHAUSTIVE = CategoricalMethodEnum.FREE ∧
          CategoricalMethodEnum.EXHAUSTIVE = CategoricalMethodEnum.FREE ∧
          CategoricalMethodEnum.EXHAUSTIVE = CategoricalMethodEnum.FREE)) ∧
        (0 : Nat) = 0) := by
  constructor
  · decide
  · decide

/-- C2 (amended): `_ask` takes the single continuous optimization exactly when
there are no categorical/discrete features, or the domain's categorical
enumeration yields exactly one combination, or all three methods are FREE, and
no n-choose-k constraint exists; it takes the mixed optimization over
`get_categorical_combinations` exactly when that condition fails and there is
no n-choose-k constraint (some method then being EXHAUSTIVE, as the selectors
are two-valued); it takes the mixed optimization over `get_fixed_values_list`
exactly when an n-choose-k constraint is present; and the remaining fatal
configuration error branch is unreachable. -/
theorem askBranch_spec (ncf ncc : Nat)
    (cm dm dcm : CategoricalMethodEnum) (nck : Nat) :
    (askBranch ncf ncc cm dm dcm nck = AskBranch.continuousOpt ↔
      ((ncf = 0 ∨ ncc = 1 ∨ (cm = CategoricalMethodEnum.FREE ∧
        dm = CategoricalMethodEnum.FREE ∧ dcm = CategoricalMethodEnum.FREE)) ∧
        nck = 0)) ∧
    (askBranch ncf ncc cm dm dcm nck = AskBranch.mixedCategorical ↔
      (¬ (ncf = 0 ∨ ncc = 1 ∨ (cm = CategoricalMethodEnum.FREE ∧
        dm = CategoricalMethodEnum.FREE ∧ dcm = CategoricalMethodEnum.FREE)) ∧
        nck = 0)) ∧
    (askBranch ncf ncc cm dm dcm nck = AskBranch.mixedNChooseK ↔ 0 < nck) ∧
    askBranch ncf ncc cm dm dcm nck ≠ AskBranch.configError := by
  unfold askBranch
  by_cases h1 : ((ncf = 0 ∨ ncc = 1 ∨ (cm = CategoricalMethodEnum.FREE ∧
      dm = CategoricalMethodEnum.FREE ∧ dcm = CategoricalMethodEnum.FREE)) ∧
      nck = 0)
  · rw [if_pos h1]
    refine ⟨iff_of_true rfl h1, ?_, ?_, by decide⟩
    · exact iff_of_false (by decide) (fun hc => hc.1 h1.1)
    · exact iff_of_false (by decide) (by have := h1.2; omega)
  · rw [if_neg h1]
    by_cases h2 : ((CategoricalMethodEnum.EXHAUSTIVE ∈
        [cm, dm, dcm]) ∧ nck = 0)
    · rw [if_pos h2]
      refine ⟨?_, ?_, ?_, by decide⟩
      · exact iff_of_false (by decide) h1
      · exact iff_of_true rfl ⟨fun hc => h1 ⟨hc, h2.2⟩, h2.2⟩
      · exact iff_of_false (by decide) (by have := h2.2; omega)
    · rw [if_neg h2]
      by_cases h3 : nck > 0
      · rw [if_pos h3]
        refine ⟨?_, ?_, iff_of_true rfl h3, by decide⟩
        · exact iff_of_false (by decide) h1
        · exact iff_of_false (by decide)
            (fun hc => by rcases hc with ⟨-, hnck⟩; omega)
      · exfalso
        have hnck : nck = 0 := by omega
        have hnotall : ¬ (cm = CategoricalMethodEnum.FREE ∧
            dm = CategoricalMethodEnum.FREE ∧ dcm = CategoricalMethodEnum.FREE) :=
          fun hc => h1 ⟨Or.inr (Or.inr hc), hnck⟩
        apply h2
        refine ⟨?_, hnck⟩
        rcases method_free_or_exhaustive cm with hcm | hcm
        · rw [hcm]
          exact List.mem_cons.mpr (Or.inl rfl)
        · rcases method_free_or_exhaustive dm with hdm | hdm
          · rw [hdm]
            exact List.mem_cons.mpr (Or.inr (List.mem_cons.mpr (Or.inl rfl)))
          · rcases method_free_or_exhaustive dcm with hdcm | hdcm
            · rw [hdcm]
              exact List.mem_cons.mpr (Or.inr (List.mem_cons.mpr (Or.inr
                (List.mem_cons.mpr (Or.inl rfl)))))
            · exact absurd ⟨hcm, hdm, hdcm⟩ hnotall

/-- Witness for the amended C2 at concrete guard inputs: one categorical
feature with three combinations, categorical EXHAUSTIVE, no n-choose-k takes
the mixed-categorical branch; the same with two n-choose-k constraints takes
the n-choose-k branch. -/
theorem askBranch_spec_witness :
    askBranch 1 3 CategoricalMethodEnum.EXHAUSTIVE CategoricalMethodEnum.FREE
      CategoricalMethodEnum.FREE 0 = AskBranch.mixedCategorical ∧
    askBranch 1 3 CategoricalMethodEnum.EXHAUSTIVE CategoricalMethodEnum.FREE
      CategoricalMethodEnum.FREE 2 = AskBranch.mixedNChooseK := by
  constructor
  · exact (askBranch_spec 1 3 CategoricalMethodEnum.EXHAUSTIVE
      CategoricalMethodEnum.FREE CategoricalMethodEnum.FREE 0).2.1.mpr
      (by constructor
          · decide
          · rfl)
  · exact (askBranch_spec 1 3 CategoricalMethodEnum.EXHAUSTIVE
      CategoricalMethodEnum.FREE CategoricalMethodEnum.FREE 2).2.2.1.mpr
      (by omega)

/-!
Embedding of the tell/ask orchestration (src/bofire/strategies/strategy.py
lines 75-128, src/bofire/strategies/predictives/predictive.py lines 66-113 and
src/bofire/strategies/predictives/botorch.py lines 458-469).  Only the
experiment count and the fit/acquisition flags matter to the claims, so the
experiment table is modelled by its row count (`none` before any data is
told). -/

structure BoState where
  experiments : Option Nat
  is_fitted : Bool
  acqf_initialized : Bool
deriving DecidableEq, Repr

/-- Embedding of `BotorchStrategy.has_sufficient_experiments` (lines 458-469).
Python subtracts unbounded ints, so the degrees of freedom are an `Int` (the
pinned-column count can exceed the feature count for one-hot features). -/
def has_sufficient_experiments (S : Strategy) (st : BoState) : Bool :=
  match st.experiments with
  | none => false
  | some n =>
    if (n : Int) >
        ((S.inputs.length : Int) - ((get_fixed_features S).length : Int)) + 1
    then true else false

/-- Embedding of `PredictiveStrategy.tell` (predictive.py lines 66-113)
restricted to the state variables: an empty batch returns unchanged;
otherwise the rows are accumulated (append or replace) and, when `retrain`
holds and the accumulated data is sufficient, the surrogate is fitted and the
acquisition function initialized.  The Bool result records whether that refit
happened. -/
def tell (S : Strategy) (st : BoState) (n_new : Nat) (replace retrain : Bool) :
    BoState × Bool :=
  if n_new = 0 then (st, false)
  else
    let accumulated : Nat :=
      if replace then n_new
      else (match st.experiments with | none => 0 | some n => n) + n_new
    let st1 : BoState :=
      { st with experiments := some accumulated }
    if retrain && has_sufficient_experiments S st1 then
      ({ st1 with is_fitted := true, acqf_initialized := true }, true)
    else (st1, false)

/-- C7: `has_sufficient_experiments` holds exactly when the accumulated
experiment count exceeds `(number of input features) - (number of pinned
columns from get_fixed_features) + 1`, and `tell` with a non-empty batch and
`retrain` (its default) refits the surrogate and initializes the acquisition
function exactly when the accumulated count satisfies that threshold. -/
theorem tell_refits_iff (S : Strategy) (st : BoState) (n_new : Nat)
    (replace : Bool) (hpos : 0 < n_new) :
    (has_sufficient_experiments S st = true ↔
      ∃ n, st.experiments = some n ∧
        (n : Int) > (S.inputs.length : Int) -
          ((get_fixed_features S).length : Int) + 1) ∧
    ((tell S st n_new replace true).1.experiments =
      some (if replace then n_new
        else (match st.experiments with | none => 0 | some n => n) + n_new)) ∧
    ((tell S st n_new replace true).2 = true ↔
      ((if replace then n_new
        else (match st.experiments with | none => 0 | some n => n) + n_new : Nat) : Int) >
        (S.inputs.length : Int) - ((get_fixed_features S).length : Int) + 1) ∧
    ((tell S st n_new replace true).2 = true →
      (tell S st n_new replace true).1.is_fitted = true ∧
      (tell S st n_new replace true).1.acqf_initialized = true) := by
  have hchar : ∀ st' : BoState, has_sufficient_experiments S st' = true ↔
      ∃ n, st'.experiments = some n ∧
        (n : Int) > (S.inputs.length : Int) -
          ((get_fixed_features S).length : Int) + 1 := by
    intro st'
    unfold has_sufficient_experiments
    rcases hexp : st'.experiments with _ | n
    · simp
    · show (if (n : Int) > ((S.inputs.length : Int) -
          ((get_fixed_features S).length : Int)) + 1 then true else false) = true ↔ _
      constructor
      · intro h
        refine ⟨n, rfl, ?_⟩
        by_contra hc
        rw [if_neg hc] at h
        exact Bool.false_ne_true h
      · rintro ⟨m, hm, hgt⟩
        have hnm : n = m := Option.some.inj hm
        subst hnm
        rw [if_pos hgt]
  have hne : ¬ n_new = 0 := by omega
  refine ⟨hchar st, ?_, ?_, ?_⟩
  · unfold tell
    rw [if_neg hne]
    by_cases hcond : (true && has_sufficient_experiments S
        { st with experiments := some (if replace then n_new
            else (match st.experiments with | none => 0 | some n => n) + n_new) }) = true
    · rw [if_pos hcond]
    · rw [if_neg hcond]
  · unfold tell
    rw [if_neg hne]
    by_cases hcond : (true && has_sufficient_experiments S
        { st with experiments := some (if replace then n_new
            else (match st.experiments with | none => 0 | some n => n) + n_new) }) = true
    · rw [if_pos hcond]
      simp only [true_iff]
      have hs : has_sufficient_experiments S
          { st with experiments := some (if replace then n_new
              else (match st.experiments with | none => 0 | some n => n) + n_new) } = true := by
        simpa using hcond
      rcases (hchar _).mp hs with ⟨m, hm, hgt⟩
      have : (if replace then n_new
          else (match st.experiments with | none => 0 | some n => n) + n_new) = m :=
        Option.some.inj hm
      rw [this]
      exact hgt
    · rw [if_neg hcond]
      simp only [Bool.false_eq_true, false_iff]
      intro hgt
      apply hcond
      simp only [Bool.true_and]
      exact (hchar _).mpr ⟨_, rfl, hgt⟩
  · unfold tell
    rw [if_neg hne]
    by_cases hcond : (true && has_sufficient_experiments S
        { st with experiments := some (if replace then n_new
            else (match st.experiments with | none => 0 | some n => n) + n_new) }) = true
    · rw [if_pos hcond]
      intro _
      exact ⟨rfl, rfl⟩
    · rw [if_neg hcond]
      intro h
      exact absurd h (by simp)

/-- Witness for C7 at a concrete strategy with two input features, none
fixed: three experiments are insufficient (3 = 2 - 0 + 1), a fourth makes
`tell` refit. -/
theorem tell_refits_iff_witness :
    (has_sufficient_experiments
      { inputs := [Feature.continuous "a" 0 1, Feature.continuous "b" 0 1],
        specs := [], categorical_method := CategoricalMethodEnum.FREE,
        descriptor_method := CategoricalMethodEnum.FREE,
        discrete_method := CategoricalMethodEnum.FREE }
      { experiments := some 3, is_fitted := false, acqf_initialized := false } =
        false) ∧
    (tell
      { inputs := [Feature.continuous "a" 0 1, Feature.continuous "b" 0 1],
        specs := [], categorical_method := CategoricalMethodEnum.FREE,
        descriptor_method := CategoricalMethodEnum.FREE,
        discrete_method := CategoricalMethodEnum.FREE }
      { experiments := some 3, is_fitted := false, acqf_initialized := false }
      1 false true).2 = true := by
  constructor
  · have h := (tell_refits_iff
      { inputs := [Feature.continuous "a" 0 1, Feature.continuous "b" 0 1],
        specs := [], categorical_method := CategoricalMethodEnum.FREE,
        descriptor_method := CategoricalMethodEnum.FREE,
        discrete_method := CategoricalMethodEnum.FREE }
      { experiments := some 3, is_fitted := false, acqf_initialized := false }
      1 false (by omega)).1
    rcases hb : has_sufficient_experiments
      { inputs := [Feature.continuous "a" 0 1, Feature.continuous "b" 0 1],
        specs := [], categorical_method := CategoricalMethodEnum.FREE,
        descriptor_method := CategoricalMethodEnum.FREE,
        discrete_method := CategoricalMethodEnum.FREE }
      { experiments := some 3, is_fitted := false,
        acqf_initialized := false } with _ | _
    · rfl
    · exfalso
      rcases h.mp hb with ⟨n, hn, hgt⟩
      have hn3 : n = 3 := (Option.some.inj hn).symm
      subst hn3
      revert hgt
      decide
  · exact ((tell_refits_iff
      { inputs := [Feature.continuous "a" 0 1, Feature.continuous "b" 0 1],
        specs := [], categorical_method := CategoricalMethodEnum.FREE,
        descriptor_method := CategoricalMethodEnum.FREE,
        discrete_method := CategoricalMethodEnum.FREE }
      { experiments := some 3, is_fitted := false, acqf_initialized := false }
      1 false (by omega)).2.2.1).mpr (by decide)

/-!
Embedding of `Strategy.ask` (src/bofire/strategies/strategy.py, lines 75-128)
up to the call into the candidate generator `_ask`, which together with its
surrogate fitting and acquisition optimization is passed as the opaque
computation `askImpl`: the validation sequence raises on a candidate count
below one, then on insufficient experiments, before `askImpl` ever runs.
-/

inductive AskError
  | invalidCandidateCount
  | insufficientExperiments
  | surrogateFitFailure
  | optimizerFailure
  | candidateCountMismatch
deriving DecidableEq, Repr

def ask (α : Type) (S : Strategy) (st : BoState) (candidate_count : Option Int)
    (askImpl : Except AskError α) : Except AskError α :=
  if (match candidate_count with
      | some c => decide (c < 1)
      | none => false) = true then
    Except.error AskError.invalidCandidateCount
  else if has_sufficient_experiments S st = false then
    Except.error AskError.insufficientExperiments
  else askImpl

/-- C8: calling `ask` with too few experiments told raises the
insufficient-experiments precondition error whatever the candidate generator
would do, so no surrogate fitting or optimization is attempted and the error
is distinct from a fit failure; in particular a strategy with no experiments
told never has sufficient experiments. -/
theorem ask_insufficient_experiments_error (α : Type) (S : Strategy)
    (st : BoState) (candidate_count : Option Int)
    (askImpl : Except AskError α)
    (hcc : ∀ c, candidate_count = some c → 1 ≤ c)
    (hins : has_sufficient_experiments S st = false) :
    ask α S st candidate_count askImpl =
      Except.error AskError.insufficientExperiments ∧
    Except.error AskError.insufficientExperiments ≠
      (Except.error AskError.surrogateFitFailure : Except AskError α) ∧
    ∀ b1 b2, has_sufficient_experiments S
      { experiments := none, is_fitted := b1, acqf_initialized := b2 } = false := by
  refine ⟨?_, by simp, fun b1 b2 => rfl⟩
  rcases hcase : candidate_count with _ | c
  · unfold ask
    show (if (false = true) then _ else _) = _
    rw [if_neg (by simp), if_pos hins]
  · have h1le := hcc c hcase
    unfold ask
    show (if (decide (c < 1) = true) then _ else _) = _
    rw [if_neg (by simp only [decide_eq_true_eq]; omega), if_pos hins]

/-- Witness for C8: a strategy with zero experiments told and candidate count
one raises the insufficient-experiments error even though the generator would
have produced candidates. -/
theorem ask_insufficient_experiments_error_witness :
    ask (List Dict)
      { inputs := [Feature.continuous "a" 0 1], specs := [],
        categorical_method := CategoricalMethodEnum.FREE,
        descriptor_method := CategoricalMethodEnum.FREE,
        discrete_method := CategoricalMethodEnum.FREE }
      { experiments := none, is_fitted := false, acqf_initialized := false }
      (some 1) (Except.ok [[]]) =
      Except.error AskError.insufficientExperiments :=
  (ask_insufficient_experiments_error (List Dict)
    { inputs := [Feature.continuous "a" 0 1], specs := [],
      categorical_method := CategoricalMethodEnum.FREE,
      descriptor_method := CategoricalMethodEnum.FREE,
      discrete_method := CategoricalMethodEnum.FREE }
    { experiments := none, is_fitted := false, acqf_initialized := false }
    (some 1) (Except.ok [[]])
    (fun c hc => by
      have : (1 : Int) = c := (Option.some.inj hc)
      omega)
    rfl).1

/-!
Embedding of the fixed-feature variance check of `PredictiveStrategy.tell`
(src/bofire/strategies/predictives/predictive.py, lines 94-107): the iterated
generator keeps only fixed non-task features, while raising additionally
requires the feature to be a `TaskInput`.  The dataframe predicate
`(cleaned_experiments[feature.key] == fixed_value[0]).all()` is abstracted by
an arbitrary `allEqualFixed`. -/

def tellVarianceCheckError (inputs : List Feature)
    (allEqualFixed : Feature → Bool) : Option String :=
  ((inputs.filter (fun f => f.is_fixed && !f.isTaskInput)).find?
    (fun f => allEqualFixed f && f.isTaskInput)).map
    (fun f => "No variance in experiments for fixed feature " ++ f.key)

/-- C9: the no-variance error branch of `tell` is unreachable: every iterated
feature is a fixed non-task feature, while raising would require it to also
be a task feature, so for every input list and dataframe predicate the check
never produces the error. -/
theorem tell_variance_check_unreachable (inputs : List Feature)
    (allEqualFixed : Feature → Bool) :
    tellVarianceCheckError inputs allEqualFixed = none := by
  unfold tellVarianceCheckError
  rw [List.find?_eq_none.mpr]
  · rfl
  · intro f hf
    have h2 := (List.mem_filter.mp hf).2
    simp only [Bool.and_eq_true, Bool.not_eq_true'] at h2
    simp [h2.2]
